import Mathlib

/-!
Verification development for the `comrak` Markdown engine (block parser,
scanners, string utilities, table / tasklist extensions).

Strings are modelled as lists of bytes (`List Nat`, each element a byte
value); the Rust code indexes `&str` by bytes throughout.  Fallible code
(indexing that can panic) is modelled with `Option`.  Code of the
repository that is not under `src/` (the `nodes`, `ctype`, `entity`,
`inlines` modules) is modelled from the specification where needed; each
such definition carries a doc comment saying so.
-/

namespace Comrak

/-- Byte value of the UTF-8 encoding of U+FFFD, pushed by `feed` in place of
an embedded NUL byte (`self.linebuf.push('\u{fffd}')`). -/
def fffd : List Nat := [239, 191, 189]

/-- From `strings.rs` `is_line_end_char`: LF or CR. -/
def isLineEndChar (ch : Nat) : Bool :=
  ch == 10 || ch == 13

/-- From `strings.rs` `is_space_or_tab`. -/
def isSpaceOrTab (ch : Nat) : Bool :=
  ch == 9 || ch == 32

/-- From `ctype.rs` (not under `src/`; the spec, section 1, treats the
character-class predicates as external collaborators): ASCII `isspace`. -/
def isspace (ch : Nat) : Bool :=
  ch == 9 || ch == 10 || ch == 11 || ch == 12 || ch == 13 || ch == 32

/-- From `ctype.rs` (external collaborator per the spec, section 1):
ASCII `isdigit`. -/
def isdigit (ch : Nat) : Bool :=
  48 ≤ ch && ch ≤ 57

/-- From `ctype.rs` (external collaborator per the spec, section 1):
ASCII `ispunct`. -/
def ispunct (ch : Nat) : Bool :=
  (33 ≤ ch && ch ≤ 47) || (58 ≤ ch && ch ≤ 64) || (91 ≤ ch && ch ≤ 96) ||
    (123 ≤ ch && ch ≤ 126)

/-! ## The `feed` chunk loop (`parser/mod.rs`, `Parser::feed`)

`feed` splits the incoming chunk into lines at LF / CR / CRLF, buffering a
trailing partial line in `linebuf`, replacing NUL bytes by U+FFFD, and
remembering in `last_buffer_ended_with_cr` that a chunk ended in CR so that
an LF opening the next chunk is skipped.  The lines it finds are handed to
`process_line`; here the loop is modelled as returning that list of lines.
-/

/-- The eol scan of `feed`'s inner loop: split off the longest segment
containing neither a line-end byte nor a NUL (`while eol < sz { ... }`).
Returns the clean segment and the rest (beginning with the special byte,
when one was found). -/
def scanEol : List Nat → List Nat × List Nat
  | [] => ([], [])
  | b :: r =>
    if isLineEndChar b || b == 0 then ([], b :: r)
    else
      let p := scanEol r
      (b :: p.1, p.2)

/-- State that `feed` keeps between chunks: the buffered partial line and
the `last_buffer_ended_with_cr` flag. -/
structure FeedSt where
  buf : List Nat
  cr : Bool
  deriving Repr, DecidableEq

/-- The two skips at the bottom of `feed`'s loop, applied to the input from
position `i`: `if i < sz && buffer[i] == b'\r' { i += 1; if i == sz {
last_buffer_ended_with_cr = true; } } if i < sz && buffer[i] == b'\n' { i
+= 1; }`.  Returns the input after the skips and the value the CR flag was
set to. -/
def skipTerm (l : List Nat) : List Nat × Bool :=
  let p := if l.head? == some 13 then (l.tail, l.tail.isEmpty) else (l, false)
  (if p.1.head? == some 10 then p.1.tail else p.1, p.2)

/-- The body of `feed`'s `while i < sz` loop, fuelled (the fuel only needs
to dominate the length of the remaining input; `feedLoop` below supplies
it).  Arguments: remaining input from position `i`, current `linebuf`.
Returns the lines passed to `process_line`, the final `linebuf`, and the
final `last_buffer_ended_with_cr` flag. -/
def feedLoopF : Nat → Bool → List Nat → List Nat →
    List (List Nat) × List Nat × Bool
  | _, _, [], buf => ([], buf, false)
  | 0, _, rem, buf => ([], buf ++ rem, false)
  | fuel + 1, eof, b :: r, buf =>
    let s := scanEol (b :: r)
    let seg := s.1
    match s.2 with
    | [] =>
      -- eol ran to the end of the chunk without finding a line end or NUL
      if eof then ([if buf.isEmpty then seg else buf ++ seg], [], false)
      else ([], buf ++ seg, false)
    | t :: rest =>
      if t == 0 then
        -- NUL branch: move the segment and U+FFFD into linebuf, step past
        -- the NUL, then the terminator skips run from the byte after it
        let buf' := buf ++ seg ++ fffd
        let sk := skipTerm rest
        let q := feedLoopF fuel eof sk.1 buf'
        (q.1, q.2.1, q.2.2 || sk.2)
      else
        -- a line end was found: emit the line, then the terminator skips
        -- run from the line end itself
        let line :=
          if ¬buf.isEmpty then buf ++ seg
          else if t == 10 then seg ++ [10]
          else seg
        let sk := skipTerm (t :: rest)
        let q := feedLoopF fuel eof sk.1 []
        (line :: q.1, q.2.1, q.2.2 || sk.2)

/-- `feed`'s loop with enough fuel for its input. -/
def feedLoop (eof : Bool) (rem buf : List Nat) :
    List (List Nat) × List Nat × Bool :=
  feedLoopF rem.length eof rem buf

/-- One call of `Parser::feed`.  `none` models the out-of-bounds panic of
`buffer[i]` in `if self.last_buffer_ended_with_cr && buffer[i] == b'\n'`,
which is reached exactly when the flag is set and the chunk is empty. -/
def feedChunk (st : FeedSt) (c : List Nat) (eof : Bool) :
    Option (FeedSt × List (List Nat)) :=
  match st.cr, c with
  | true, [] => none
  | cr, c =>
    let c' := if cr && c.head? == some 10 then c.tail else c
    let q := feedLoop eof c' st.buf
    some (⟨q.2.1, q.2.2⟩, q.1)

/-- The initial `feed` state of a fresh `Parser`. -/
def feedSt0 : FeedSt := ⟨[], false⟩

/-- Feed a list of chunks in order, with `eof` on the last chunk, collecting
all lines passed to `process_line`. -/
def runChunks : FeedSt → List (List Nat) → Option (FeedSt × List (List Nat))
  | st, [] => some (st, [])
  | st, [c] => feedChunk st c true
  | st, c :: c' :: cs =>
    match feedChunk st c false with
    | none => none
    | some (st1, ls) =>
      match runChunks st1 (c' :: cs) with
      | none => none
      | some (st2, ls') => some (st2, ls ++ ls')

/-- The first step of `process_line`: a line that is empty or does not end
in a line-end byte gets an LF appended. -/
def normLine (l : List Nat) : List Nat :=
  match l.getLast? with
  | none => l ++ [10]
  | some b => if isLineEndChar b then l else l ++ [10]

/-- The full line sequence a chunked run hands to `process_line`: the lines
emitted by the `feed` calls, then (from `finish`) the leftover `linebuf` if
it is non-empty, all normalised as `process_line` does.  `none` models a
panic in one of the `feed` calls. -/
def pipelineLines (chunks : List (List Nat)) : Option (List (List Nat)) :=
  match runChunks feedSt0 chunks with
  | none => none
  | some (st, ls) =>
    some (ls.map normLine ++ if st.buf.isEmpty then [] else [normLine st.buf])

/-! ### Specification machine for line splitting

A byte-at-a-time machine equivalent to the whole-buffer behaviour of the
loop above.  `Mode.c` means the previous byte was a CR whose following LF
must be skipped; `Mode.u` means the previous byte was a NUL, after which
the loop's terminator skip consumes a following CR (going to `Mode.c`) or
LF without completing a line. -/

inductive Mode where
  | n : Mode
  | c : Mode
  | u : Mode
  deriving Repr, DecidableEq

/-- One byte of the specification machine, acting on (completed lines,
pending partial line, mode). -/
def lineStep (st : List (List Nat) × List Nat × Mode) (b : Nat) :
    List (List Nat) × List Nat × Mode :=
  if st.2.2 = .c ∧ b = 10 then (st.1, st.2.1, .n)
  else if st.2.2 = .u ∧ b = 10 then (st.1, st.2.1, .n)
  else if st.2.2 = .u ∧ b = 13 then (st.1, st.2.1, .c)
  else if b = 10 then (st.1 ++ [st.2.1 ++ [10]], [], .n)
  else if b = 13 then (st.1 ++ [st.2.1 ++ [10]], [], .c)
  else if b = 0 then (st.1, st.2.1 ++ fffd, .u)
  else (st.1, st.2.1 ++ [b], .n)

/-- Byte-at-a-time line splitting: completed lines (each ending in LF), the
pending partial line, and the mode carried to the next byte. -/
def lineSplit (m : Mode) (pend s : List Nat) :
    List (List Nat) × List Nat × Mode :=
  s.foldl lineStep ([], pend, m)

/-- The line sequence of a whole input under the specification machine
(completed lines plus the final pending line, if non-empty). -/
def lineSplitAll (s : List Nat) : List (List Nat) :=
  let q := lineSplit .n [] s
  q.1 ++ if q.2.1.isEmpty then [] else [q.2.1 ++ [10]]

/-- A byte that the eol scan passes over: neither a line end nor NUL. -/
def cleanByte (b : Nat) : Prop :=
  isLineEndChar b = false ∧ b ≠ 0

/-- The lines a `feed` run contributes once the leftover `linebuf` is also
processed (by `finish`), normalised as `process_line` does. -/
def feedOut (q : List (List Nat) × List Nat × Bool) : List (List Nat) :=
  q.1.map normLine ++ if q.2.1.isEmpty then [] else [normLine q.2.1]

/-- The mode resulting from processing a byte: a byte fully determines the
machine mode after it, whatever the mode before it. -/
def modeOf (b : Nat) : Mode :=
  if b = 13 then .c else if b = 0 then .u else .n

/-- The relation between the specification machine's mode and the CR flag
`feed` keeps at a chunk boundary, relative to the upcoming chunk: the CR
flag records exactly mode `c`; the NUL mode cannot be recorded, which is
harmless only when the next chunk does not begin with a line terminator. -/
def modeOk (m : Mode) (cr : Bool) (next : List Nat) : Prop :=
  (m = .n ∧ cr = false) ∨ (m = .c ∧ cr = true) ∨
    (m = .u ∧ cr = false ∧ next.head? ≠ some 10 ∧ next.head? ≠ some 13)

/-- Well-formed chunk sequence for streaming equivalence: every chunk is
non-empty, and a chunk ending in NUL is never followed by a chunk
beginning with CR or LF (the `feed` state cannot record the pending
terminator skip across a chunk boundary). -/
def chunksOk : List (List Nat) → Prop
  | [] => True
  | [c] => c ≠ []
  | c :: c2 :: cs => c ≠ [] ∧
      (c.getLast? = some 0 → c2.head? ≠ some 10 ∧ c2.head? ≠ some 13) ∧
      chunksOk (c2 :: cs)

/-- The precondition of claim C10: no empty chunk is fed immediately after
a chunk ending in CR. -/
def crOk : List (List Nat) → Prop
  | [] => True
  | [_] => True
  | c :: c2 :: cs => (c.getLast? = some 13 → c2 ≠ []) ∧ crOk (c2 :: cs)


/-! ## Scanners (`scanners.rs`)

The scanners are anchored regexes (`\A(?: ... )`) evaluated with the Rust
`regex` crate's leftmost-first, greedy semantics.  Each is transcribed
either as a direct deterministic scan (when greediness makes the match
unique, noted at each definition) or through the small nondeterministic
matcher `reEnds` below (when only the boolean result is used). -/

/-- Does `p` occur at the start of `l`? (`str::starts_with` on bytes.) -/
def startsBytes : List Nat → List Nat → Bool
  | [], _ => true
  | _ :: _, [] => false
  | p :: ps, b :: bs => p == b && startsBytes ps bs

/-- `atx_heading_start`: `\A(?:#{1,6}([ \t]+|[\r\n]))`, returning the match
length.  Greediness makes the match unique: a run of more than 6 `#` fails
(every 1–6 split is followed by another `#`), and after the hashes either
the maximal space/tab run or a single CR/LF is consumed. -/
def atxHeadingStart (l : List Nat) : Option Nat :=
  let hashes := (l.takeWhile (· == 35)).length
  if hashes = 0 ∨ hashes > 6 then none
  else
    let r := l.drop hashes
    match r.head? with
    | some b =>
      if b = 32 ∨ b = 9 then some (hashes + (r.takeWhile isSpaceOrTab).length)
      else if b = 13 ∨ b = 10 then some (hashes + 1)
      else none
    | none => none

/-- `reddit_atx_heading_start`: `\A(?:#{1,6})` — a run of `#`, capped at
six, with no requirement on the following byte. -/
def redditAtxHeadingStart (l : List Nat) : Option Nat :=
  let hashes := min ((l.takeWhile (· == 35)).length) 6
  if hashes = 0 then none else some hashes

/-- `scanners.rs` `SetextChar`. -/
inductive SetextChar where
  | equals : SetextChar
  | hyphen : SetextChar
  deriving Repr, DecidableEq

/-- `setext_heading_line`: `\A(?:(=+|-+)[ \t]*[\r\n])`, reporting which
character underlines (from the first byte, as the source does). -/
def setextHeadingLine (l : List Nat) : Option SetextChar :=
  match l.head? with
  | some b =>
    if b = 61 ∨ b = 45 then
      let r := ((l.dropWhile (· == b)).dropWhile isSpaceOrTab)
      match r.head? with
      | some c =>
        if isLineEndChar c then some (if b = 61 then .equals else .hyphen)
        else none
      | none => none
    else none
  | none => none

/-- `open_code_fence`: ``\A(?:(```+|~~~+)[^`\r\n\x00]*[\r\n])``, returning
the length of capture group 1 (the fence run).  The greedy group always
takes the whole run: an info string may not contain a fence backtick, and
for tildes a shorter group leaves the same suffix to the info class. -/
def openCodeFence (l : List Nat) : Option Nat :=
  match l.head? with
  | some b =>
    if b = 96 ∨ b = 126 then
      let run := (l.takeWhile (· == b)).length
      if run < 3 then none
      else
        let r := (l.drop run).dropWhile
          (fun c => !(c == 96 || c == 13 || c == 10 || c == 0))
        match r.head? with
        | some c => if isLineEndChar c then some run else none
        | none => none
    else none
  | none => none

/-- `close_code_fence`: ``\A(?:(```+|~~~+)[ \t]*[\r\n])``, returning the
length of capture group 1. -/
def closeCodeFence (l : List Nat) : Option Nat :=
  match l.head? with
  | some b =>
    if b = 96 ∨ b = 126 then
      let run := (l.takeWhile (· == b)).length
      if run < 3 then none
      else
        let r := (l.drop run).dropWhile isSpaceOrTab
        match r.head? with
        | some c => if isLineEndChar c then some run else none
        | none => none
    else none
  | none => none

/-- The loop of `thematic_break`'s pattern
`\A(?:((\*[ \t]*){3,}|(_[ \t]*){3,}|(-[ \t]*){3,})[ \t]*[\r\n])`:
repeatedly a marker byte followed by spaces/tabs, then a line end, with at
least three markers; returns the full match length. -/
def thematicGo (c : Nat) : Nat → List Nat → Nat → Nat → Option Nat
  | 0, _, _, _ => none
  | _ + 1, [], _, _ => none
  | fuel + 1, b :: r, count, pos =>
    if b = c then
      thematicGo c fuel (r.dropWhile isSpaceOrTab) (count + 1)
        (pos + 1 + (r.takeWhile isSpaceOrTab).length)
    else if isLineEndChar b then
      if count ≥ 3 then some (pos + 1) else none
    else none

/-- `thematic_break`, returning the match length (three or more of the same
marker among `*`, `_`, `-`, optionally spaced, then a line end). -/
def thematicBreak (l : List Nat) : Option Nat :=
  match l.head? with
  | some b => if b = 42 ∨ b = 95 ∨ b = 45 then thematicGo b (l.length + 1) l 0 0
    else none
  | none => none

/-- A regular-expression AST for the scanners whose only used output is
whether the anchored pattern matches a prefix of the input. -/
inductive Re where
  | eps : Re
  | byte : (Nat → Bool) → Re
  | cat : Re → Re → Re
  | alt : Re → Re → Re
  | star : Re → Re

/-- The fuel-0 layer of the matcher: a starred expression matches only
emptily. -/
def reStep0 : Re → List Nat → List (List Nat)
  | .eps, s => [s]
  | .byte _, [] => []
  | .byte p, b :: r => if p b then [r] else []
  | .cat a b, s => ((reStep0 a s).map (fun s2 => reStep0 b s2)).flatten
  | .alt a b, s => reStep0 a s ++ reStep0 b s
  | .star _, s => [s]

/-- One fuel layer of the matcher: `next` resumes a starred expression at
the lower fuel level. -/
def reStep (next : Re → List Nat → List (List Nat)) :
    Re → List Nat → List (List Nat)
  | .eps, s => [s]
  | .byte _, [] => []
  | .byte p, b :: r => if p b then [r] else []
  | .cat a b, s => ((reStep next a s).map (fun s2 => reStep next b s2)).flatten
  | .alt a b, s => reStep next a s ++ reStep next b s
  | .star a, s =>
    s :: (((reStep next a s).filter (fun s2 => s2.length < s.length)).map
      (fun s2 => next (.star a) s2)).flatten

/-- All suffixes of `s` remaining after matching a prefix of `s` against
`re` (standard nondeterministic matching; the fuel bounds star unfolding
by the input length, with empty star iterations discarded as in standard
star semantics). -/
def reEnds : Nat → Re → List Nat → List (List Nat)
  | 0, re, s => reStep0 re s
  | f + 1, re, s => reStep (reEnds f) re s

/-- Does the anchored regex match a prefix of `s` (`Regex::is_match` with
`\A(?: ... )`)? -/
def reMatch (re : Re) (s : List Nat) : Bool :=
  !(reEnds s.length re s).isEmpty

/-- A literal byte. -/
def Re.chr (n : Nat) : Re := .byte (· == n)

/-- A literal byte string. -/
def Re.str : List Nat → Re
  | [] => .eps
  | b :: r => .cat (.chr b) (Re.str r)

/-- Zero or one. -/
def Re.opt (a : Re) : Re := .alt a .eps

/-- One or more. -/
def Re.plus (a : Re) : Re := .cat a (.star a)

/-- `SPACE_CHAR`: `[ \t\v\f\r\n]`. -/
def reSpaceChar : Re := .byte (fun c => c == 32 || c == 9 || c == 11 || c == 12 || c == 13 || c == 10)

/-- `TAG_NAME`: `[A-Za-z][A-Za-z0-9-]*`. -/
def reTagName : Re :=
  .cat (.byte (fun c => (65 ≤ c && c ≤ 90) || (97 ≤ c && c ≤ 122)))
    (.star (.byte (fun c =>
      (65 ≤ c && c ≤ 90) || (97 ≤ c && c ≤ 122) || (48 ≤ c && c ≤ 57) || c == 45)))

/-- `CLOSE_TAG`: `/TAG_NAME SPACE_CHAR* >`. -/
def reCloseTag : Re :=
  .cat (.chr 47) (.cat reTagName (.cat (.star reSpaceChar) (.chr 62)))

/-- `ATTRIBUTE_NAME`: `[a-zA-Z_:][a-zA-Z0-9:._-]*`. -/
def reAttributeName : Re :=
  .cat (.byte (fun c => (65 ≤ c && c ≤ 90) || (97 ≤ c && c ≤ 122) || c == 95 || c == 58))
    (.star (.byte (fun c =>
      (65 ≤ c && c ≤ 90) || (97 ≤ c && c ≤ 122) || (48 ≤ c && c ≤ 57) ||
        c == 58 || c == 46 || c == 95 || c == 45)))

/-- `ATTRIBUTE_VALUE`: an unquoted run without `"`, `'`, `=`, `<`, `>`,
backtick or NUL, or a single- or double-quoted string. -/
def reAttributeValue : Re :=
  .alt (.plus (.byte (fun c =>
      !(c == 34 || c == 39 || c == 61 || c == 60 || c == 62 || c == 96 || c == 0))))
    (.alt (.cat (.chr 39) (.cat (.star (.byte (fun c => !(c == 39 || c == 0)))) (.chr 39)))
      (.cat (.chr 34) (.cat (.star (.byte (fun c => !(c == 34 || c == 0)))) (.chr 34))))

/-- `ATTRIBUTE_VALUE_SPEC`: `SPACE* = SPACE* ATTRIBUTE_VALUE`. -/
def reAttributeValueSpec : Re :=
  .cat (.star reSpaceChar) (.cat (.chr 61) (.cat (.star reSpaceChar) reAttributeValue))

/-- `ATTRIBUTE`: `SPACE+ ATTRIBUTE_NAME ATTRIBUTE_VALUE_SPEC?`. -/
def reAttribute : Re :=
  .cat (.plus reSpaceChar) (.cat reAttributeName (.opt reAttributeValueSpec))

/-- `OPEN_TAG`: `TAG_NAME ATTRIBUTE* SPACE* /? >`. -/
def reOpenTag : Re :=
  .cat reTagName (.cat (.star reAttribute)
    (.cat (.star reSpaceChar) (.cat (.opt (.chr 47)) (.chr 62))))

/-- `html_block_start_7`'s regex:
`\A(?:<(OPEN_TAG|CLOSE_TAG)[\t\n\f ]*[\r\n])`. -/
def reHtmlBlock7 : Re :=
  .cat (.chr 60) (.cat (.alt reOpenTag reCloseTag)
    (.cat (.star (.byte (fun c => c == 9 || c == 10 || c == 12 || c == 32)))
      (.byte isLineEndChar)))

/-- `html_block_start` `RE1`: `\A(?:<(script|pre|style)([ \t\v\f\r\n]|>))`. -/
def reHtmlStart1 : Re :=
  .cat (.chr 60)
    (.cat (.alt (Re.str [115, 99, 114, 105, 112, 116])
        (.alt (Re.str [112, 114, 101]) (Re.str [115, 116, 121, 108, 101])))
      (.alt reSpaceChar (.chr 62)))

/-- The block tag names of `BLOCK_TAG_NAMES` (byte strings). -/
def blockTagNames : List (List Nat) :=
  ["address", "article", "aside", "base", "basefont", "blockquote", "body",
    "caption", "center", "col", "colgroup", "dd", "details", "dialog", "dir",
    "div", "dl", "dt", "fieldset", "figcaption", "figure", "footer", "form",
    "frame", "frameset", "h1", "h2", "h3", "h4", "h5", "h6", "head", "header",
    "hr", "html", "iframe", "legend", "li", "link", "main", "menu", "menuitem",
    "meta", "nav", "noframes", "ol", "optgroup", "option", "p", "param",
    "section", "source", "title", "summary", "table", "tbody", "td", "tfoot",
    "th", "thead", "title", "tr", "track", "ul"].map
    (fun s => s.toList.map Char.toNat)

/-- `html_block_start` `RE6`: `\A(?:</?(TAG|...)([ \t\v\f\r\n]|/?>))`.
Only the boolean matters, so the alternation is a disjunction over the tag
list. -/
def reHtmlStart6 : Re :=
  .cat (.chr 60) (.cat (.opt (.chr 47))
    (.cat ((blockTagNames.map Re.str).foldr Re.alt (.byte (fun _ => false)))
      (.alt reSpaceChar (.cat (.opt (.chr 47)) (.chr 62)))))

/-- `html_block_start`: the six ordered checks of the source.  Note the
source tests `RE4` (`<![A-Z]`) before the `<![CDATA[` literal, so a CDATA
opener reports type 4. -/
def htmlBlockStart (l : List Nat) : Option Nat :=
  if reMatch reHtmlStart1 l then some 1
  else if startsBytes [60, 33, 45, 45] l then some 2
  else if startsBytes [60, 63] l then some 3
  else if reMatch (.cat (.chr 60) (.cat (.chr 33) (.byte (fun c => 65 ≤ c && c ≤ 90)))) l then some 4
  else if startsBytes [60, 33, 91, 67, 68, 65, 84, 65, 91] l then some 5
  else if reMatch reHtmlStart6 l then some 6
  else none

/-- `html_block_start_7`. -/
def htmlBlockStart7 (l : List Nat) : Option Nat :=
  if reMatch reHtmlBlock7 l then some 7 else none

/-- `TABLE_SPACECHAR`: `[ \t\v\f]`. -/
def isTableSpace (c : Nat) : Bool :=
  c == 32 || c == 9 || c == 11 || c == 12

/-- `TABLE_MARKER`: `TABLE_SPACECHAR* :? -+ :? TABLE_SPACECHAR*`. -/
def reTableMarker : Re :=
  .cat (.star (.byte isTableSpace)) (.cat (.opt (.chr 58))
    (.cat (.plus (.chr 45)) (.cat (.opt (.chr 58)) (.star (.byte isTableSpace)))))

/-- `table_start`:
`\A\|?MARKER(\|MARKER)*\|?TABLE_SPACECHAR*\r?\n` (only the boolean result
is used by the table opener). -/
def reTableStart : Re :=
  .cat (.opt (.chr 124)) (.cat reTableMarker
    (.cat (.star (.cat (.chr 124) reTableMarker))
      (.cat (.opt (.chr 124)) (.cat (.star (.byte isTableSpace))
        (.cat (.opt (.chr 13)) (.chr 10))))))

/-- `table_start` as a scanner. -/
def tableStart (l : List Nat) : Bool :=
  reMatch reTableStart l

/-- `table_cell`: length of the greedy `((ESCAPED_CHAR|[^|\r\n])*)`.  The
only alternation overlap is a backslash: taking the escape pair never
shortens the match, so a deterministic scan computes the greedy length. -/
def tableCellLen : List Nat → Nat
  | [] => 0
  | 92 :: r =>
    match r with
    | [] => 1
    | c :: r2 =>
      if ispunct c then 2 + tableCellLen r2
      else 1 + tableCellLen (c :: r2)
  | b :: r =>
    if b = 124 ∨ b = 13 ∨ b = 10 then 0 else 1 + tableCellLen r

/-- `table_cell_end`: `\A\|TABLE_SPACECHAR*(\r?\n)?`, returning the match
length. -/
def tableCellEndLen (l : List Nat) : Option Nat :=
  match l with
  | 124 :: r =>
    let sp := (r.takeWhile isTableSpace).length
    let r2 := r.drop sp
    match r2 with
    | 13 :: 10 :: _ => some (1 + sp + 2)
    | 10 :: _ => some (1 + sp + 1)
    | _ => some (1 + sp)
  | _ => none

/-- `table_row_end`: `\A TABLE_SPACECHAR* \r?\n`, returning the match
length. -/
def tableRowEndLen (l : List Nat) : Option Nat :=
  let sp := (l.takeWhile isTableSpace).length
  let r2 := l.drop sp
  match r2 with
  | 13 :: 10 :: _ => some (sp + 2)
  | 10 :: _ => some (sp + 1)
  | _ => none

/-- `table.rs` `unescape_pipes`: drop each backslash and keep the byte
after it (a trailing backslash is kept). -/
def unescapePipes : List Nat → List Nat
  | [] => []
  | 92 :: [] => [92]
  | 92 :: c :: r2 => c :: unescapePipes r2
  | b :: r => b :: unescapePipes r

/-- `strings.rs` `ltrim` on bytes.  The source's loop calls
`pop_front(0)`, which removes nothing, so `ltrim` leaves the string
unchanged. -/
def ltrimBytes (l : List Nat) : List Nat :=
  l

/-- `strings.rs` `rtrim` on bytes. -/
def rtrimBytes (l : List Nat) : List Nat :=
  (l.reverse.dropWhile isspace).reverse

/-- `strings.rs` `trim`: `ltrim` then `rtrim`; since `ltrim` is a no-op,
only trailing whitespace is removed. -/
def trimBytes (l : List Nat) : List Nat :=
  rtrimBytes (ltrimBytes l)

/-- The loop of `table.rs` `row`, carried out on the string with an
explicit offset; fuel dominates the string length (the loop advances the
offset whenever it continues). -/
def rowLoop : Nat → List Nat → Nat → List (List Nat) → Option (List (List Nat))
  | 0, _, _, _ => none
  | fuel + 1, s, offset, v =>
    let cell := tableCellLen (s.drop offset)
    let pipe0 := (tableCellEndLen (s.drop (offset + cell))).getD 0
    let v2 := if cell > 0 ∨ pipe0 > 0 then
        v ++ [trimBytes (unescapePipes ((s.drop offset).take cell))]
      else v
    let offset1 := offset + cell + pipe0
    let pr := if pipe0 = 0 then
        (let re := (tableRowEndLen (s.drop offset1)).getD 0
         (re, offset1 + re))
      else (pipe0, offset1)
    if (cell > 0 ∨ pr.1 > 0) ∧ pr.2 < s.length then rowLoop fuel s pr.2 v2
    else if pr.2 ≠ s.length ∨ v2.isEmpty then none
    else some v2

/-- `table.rs` `row`: split a line into trimmed, pipe-unescaped cells;
`none` when the line is not a row shape. -/
def row (s : List Nat) : Option (List (List Nat)) :=
  let offset := if s.length > 0 ∧ s.head? = some 124 then 1 else 0
  rowLoop (s.length + 1) s offset []

/-- `table.rs` `matches`: the table-continuation test. -/
def tableMatches (s : List Nat) : Bool :=
  (row s).isSome

/-- The two cell-building loops of `try_opening_row`: the first adds the
parsed cells up to `min (alignments) (cells)`, the second pads with empty
cells up to the alignment count. -/
def rowCellsGo : Nat → Nat → List (List Nat) → Nat → List (List Nat)
  | 0, _, _, _ => []
  | fuel + 1, al, cells, i =>
    if i < min al cells.length then
      cells.getD i [] :: rowCellsGo fuel al cells (i + 1)
    else if i < al then
      [] :: rowCellsGo fuel al cells (i + 1)
    else []

/-- Both cell loops of `try_opening_row`, from `i = 0`; the loops run at
most `al` iterations. -/
def rowCells (al : Nat) (cells : List (List Nat)) : List (List Nat) :=
  rowCellsGo (al + 1) al cells 0

/-- `strings.rs` `chop_trailing_hashtags`: right-trim, then drop a run of
trailing `#` when it is preceded by a space or tab (and right-trim again);
a line that is entirely hashes is kept. -/
def chopTrailingHashtags (l : List Nat) : List Nat :=
  let l1 := rtrimBytes l
  let k := (l1.reverse.takeWhile (· == 35)).length
  if k = l1.length then l1
  else if k > 0 ∧ isSpaceOrTab (l1.getD (l1.length - k - 1) 0) then
    rtrimBytes (l1.take (l1.length - k - 1))
  else l1

/-- `strings.rs` `is_blank`: only spaces and tabs before the first line
end (or the end of the string). -/
def isBlank : List Nat → Bool
  | [] => true
  | c :: r =>
    if c = 10 ∨ c = 13 then true
    else if c = 32 ∨ c = 9 then isBlank r
    else false

/-- `strings.rs` `remove_trailing_blank_lines`: truncate at the first line
end after the last byte that is not a space, tab or line end; clear a
fully blank string.  (On the empty string the source underflows; the
parser only calls it on non-empty code-block content.) -/
def removeTrailingBlankLines (l : List Nat) : List Nat :=
  let blankByte := fun c => c == 32 || c == 9 || isLineEndChar c
  let revDrop := l.reverse.dropWhile blankByte
  if revDrop.isEmpty then []
  else
    let i := revDrop.length - 1
    l.take (i + ((l.drop i).takeWhile (fun c => !isLineEndChar c)).length)

/-! ## List markers (`parse_list_marker`, `parser/mod.rs`) -/

/-- `nodes.rs` `ListType` (modelled from the spec, section 3; `nodes.rs`
is not under `src/`). -/
inductive ListType where
  | bullet : ListType
  | ordered : ListType
  deriving Repr, DecidableEq

/-- `nodes.rs` `ListDelimType` (modelled from the spec, section 3). -/
inductive ListDelimType where
  | period : ListDelimType
  | paren : ListDelimType
  deriving Repr, DecidableEq

/-- `nodes.rs` `NodeList` (modelled from the spec, section 3). -/
structure NodeList where
  listType : ListType
  markerOffset : Nat
  padding : Nat
  start : Nat
  delimiter : ListDelimType
  bulletChar : Nat
  tight : Bool
  deriving Repr, DecidableEq

instance : Inhabited NodeList :=
  ⟨⟨.bullet, 0, 0, 1, .period, 0, false⟩⟩

/-- Byte access `line.as_bytes()[i]`.  Callers keep the index inside the
line (every parser line ends in a line-end byte); the default 0 matches no
scanner byte class, so it is inert. -/
def byteAt (l : List Nat) (i : Nat) : Nat :=
  l.getD i 0

/-- The digit loop of `parse_list_marker`: accumulate up to nine digits
(`digits < 9 && isdigit(...)`), returning the value and the position after
the run.  The fuel argument is `9 - digits`. -/
def digitsLoop : Nat → Nat → Nat → List Nat → Nat × Nat
  | 0, start, pos, _ => (start, pos)
  | fuel + 1, start, pos, line =>
    let start2 := 10 * start + (byteAt line pos - 48)
    let pos2 := pos + 1
    if fuel > 0 ∧ isdigit (byteAt line pos2) then digitsLoop fuel start2 pos2 line
    else (start2, pos2)

/-- `parse_list_marker` (`parser/mod.rs`). -/
def parseListMarker (line : List Nat) (pos : Nat)
    (interruptsParagraph : Bool) : Option (Nat × NodeList) :=
  let c := byteAt line pos
  let startpos := pos
  if c = 42 ∨ c = 45 ∨ c = 43 then
    let pos2 := pos + 1
    if ¬ (isspace (byteAt line pos2) = true) then none
    else if interruptsParagraph ∧
        byteAt line (pos2 + ((line.drop pos2).takeWhile isSpaceOrTab).length) = 10 then
      none
    else some (pos2 - startpos, ⟨.bullet, 0, 0, 1, .period, c, false⟩)
  else if isdigit c then
    let sp := digitsLoop 9 0 pos line
    if interruptsParagraph ∧ sp.1 ≠ 1 then none
    else
      let c2 := byteAt line sp.2
      if c2 ≠ 46 ∧ c2 ≠ 41 then none
      else
        let pos3 := sp.2 + 1
        if ¬ (isspace (byteAt line pos3) = true) then none
        else if interruptsParagraph ∧
            isLineEndChar (byteAt line
              (pos3 + ((line.drop pos3).takeWhile isSpaceOrTab).length)) = true then
          none
        else some (pos3 - startpos,
          ⟨.ordered, 0, 0, sp.1, if c2 = 46 then .period else .paren, 0, false⟩)
  else none

/-! ## Task lists (`Parser::process_tasklist`, `parser/mod.rs`) -/

/-- The `TASKLIST` regex `\A(\s*\[([xX ])\])(?:\z|\s)` as a scan, returning
(checked?, end of capture group 1).  `\s` is modelled on its ASCII range
(Unicode character classes are external collaborators per the spec,
section 1). -/
def tasklistScan (text : List Nat) : Option (Bool × Nat) :=
  let sp := (text.takeWhile isspace).length
  match text.drop sp with
  | 91 :: c :: 93 :: rest =>
    if c = 120 ∨ c = 88 ∨ c = 32 then
      match rest.head? with
      | none => some (c ≠ 32, sp + 3)
      | some d => if isspace d then some (c ≠ 32, sp + 3) else none
    else none
  | _ => none

/-- The checkbox literal for a checked item. -/
def checkedBox : String :=
  "<input type=\"checkbox\" disabled=\"\" checked=\"\" />"

/-- The checkbox literal for an unchecked item. -/
def uncheckedBox : String :=
  "<input type=\"checkbox\" disabled=\"\" />"

/-- The position of a Text node as `process_tasklist` examines it: whether
it has a previous sibling, whether its parent is a Paragraph with no
previous sibling, and whether the grandparent is an Item. -/
structure TasklistCtx where
  nodeHasPrevSibling : Bool
  parentIsParagraph : Bool
  parentHasPrevSibling : Bool
  grandparentIsItem : Bool
  deriving Repr, DecidableEq

/-- `Parser::process_tasklist` as a function of the text and the node's
position: `some (newText, literal)` when the node is rewritten and an
`HtmlInline` checkbox is inserted before it; `none` when nothing happens. -/
def processTasklist (ctx : TasklistCtx) (text : List Nat) :
    Option (List Nat × String) :=
  match tasklistScan text with
  | none => none
  | some (active, e) =>
    if ctx.nodeHasPrevSibling ∨ ctx.parentHasPrevSibling then none
    else if ¬ ctx.parentIsParagraph then none
    else if ¬ ctx.grandparentIsItem then none
    else some (text.drop e, if active then checkedBox else uncheckedBox)

/-! ## Reference labels and the reference map -/

/-- Rust `char::to_lowercase` on its ASCII range; the full Unicode case
mapping is an external collaborator (spec, section 1). -/
def charLowerAscii (c : Nat) : Nat :=
  if 65 ≤ c ∧ c ≤ 90 then c + 32 else c

/-- Rust `char::is_whitespace` on its ASCII range (external collaborator
per the spec, section 1). -/
def isUniWhitespace (c : Nat) : Bool :=
  c == 32 || c == 9 || c == 10 || c == 11 || c == 12 || c == 13

/-- `strings.rs` `trim_slice`: strip leading then trailing `isspace`
bytes. -/
def trimSlice (l : List Nat) : List Nat :=
  ((l.dropWhile isspace).reverse.dropWhile isspace).reverse

/-- The fold of `normalize_reference_label`: lowercase each character and
collapse whitespace runs into single spaces. -/
def normRefGo : List Nat → Bool → List Nat
  | [], _ => []
  | c :: r, lastWs =>
    let e := charLowerAscii c
    if isUniWhitespace e then
      if lastWs then normRefGo r true else 32 :: normRefGo r true
    else e :: normRefGo r false

/-- `strings.rs` `normalize_reference_label`. -/
def normalizeReferenceLabel (l : List Nat) : List Nat :=
  normRefGo (trimSlice l) false

/-- `parser/mod.rs` `Reference`.  The stored url and title are
`clean_url` / `clean_title` of the scanned text; their entity decoding is
an external collaborator (spec, sections 1 and 2), so they are carried
here as given values. -/
structure Reference where
  url : List Nat
  title : List Nat
  deriving Repr, DecidableEq

/-- Lookup in the reference map (the parser's `HashMap` keyed by the
normalized label). -/
def refmapLookup (m : List (List Nat × Reference)) (k : List Nat) :
    Option Reference :=
  (m.find? (fun p => p.1 == k)).map (fun p => p.2)

/-- `refmap.entry(lab).or_insert(v)`: keep an existing binding, insert
otherwise. -/
def refmapEntryOrInsert (m : List (List Nat × Reference)) (k : List Nat)
    (v : Reference) : List (List Nat × Reference) :=
  if (refmapLookup m k).isSome then m else m ++ [(k, v)]

/-- The registration step of `parse_reference_inline` (lines 1279–1285 of
`parser/mod.rs`): normalise the label and, unless it is empty, register
the reference with first-definition-wins semantics. -/
def registerReference (m : List (List Nat × Reference)) (lab : List Nat)
    (v : Reference) : List (List Nat × Reference) :=
  let lab2 := normalizeReferenceLabel lab
  if lab2.isEmpty then m else refmapEntryOrInsert m lab2 v

/-- Two labels that differ only in letter case, in leading or trailing
whitespace, or in the length (and make-up) of internal whitespace runs:
the equivalence generated by (i) changing letters' case position by
position, (ii) adding or removing leading and trailing whitespace, and
(iii) replacing one non-empty whitespace run by another. -/
inductive LabelDiff : List Nat → List Nat → Prop
  | letterCase (l1 l2 : List Nat)
      (h : List.Forall₂ (fun a b => charLowerAscii a = charLowerAscii b) l1 l2) :
      LabelDiff l1 l2
  | outerWs (p l s : List Nat)
      (hp : ∀ x ∈ p, isspace x = true) (hs : ∀ x ∈ s, isspace x = true) :
      LabelDiff (p ++ l ++ s) l
  | wsRun (a b u v : List Nat) (hu : u ≠ []) (hv : v ≠ [])
      (hwu : ∀ x ∈ u, isspace x = true) (hwv : ∀ x ∈ v, isspace x = true) :
      LabelDiff (a ++ u ++ b) (a ++ v ++ b)
  | symm (l1 l2 : List Nat) (h : LabelDiff l1 l2) : LabelDiff l2 l1
  | trans (l1 l2 l3 : List Nat) (h1 : LabelDiff l1 l2)
      (h2 : LabelDiff l2 l3) : LabelDiff l1 l3



/-! ## The block-parser machine (`parser/mod.rs`, `parser/table.rs`)

Nodes live in an arena (`nodes : List NodeRec`), identified by index;
`parent` and `children` mirror the source tree's links (sibling order is
the order of `children`).  The tree API (`arena_tree`), node constructors
and the node classification predicates live in modules that are not under
`src/`; they are modelled from the specification, as marked below.
Loops are fuelled; every fuel bound dominates the loop's iteration count
on the runs analysed here (the bounds are noted at each definition). -/

/-- `TAB_STOP`. -/
def TAB_STOP : Nat := 4

/-- `CODE_INDENT`. -/
def CODE_INDENT : Nat := 4

/-- `nodes.rs` `TableAlignment` (modelled from the spec, section 3). -/
inductive TableAlignment where
  | noAlign : TableAlignment
  | left : TableAlignment
  | center : TableAlignment
  | right : TableAlignment
  deriving Repr, DecidableEq

/-- `nodes.rs` `NodeValue`, restricted to block variants (the inline phase
is outside the block parser; spec, section 3). -/
inductive NodeValue where
  | document : NodeValue
  | blockQuote : NodeValue
  | list : NodeList → NodeValue
  | item : NodeList → NodeValue
  | paragraph : NodeValue
  | heading : Nat → Bool → NodeValue
  | codeBlock : Bool → Nat → Nat → Nat → List Nat → List Nat → NodeValue
  | htmlBlock : Nat → List Nat → NodeValue
  | themBreak : NodeValue
  | table : List TableAlignment → NodeValue
  | tableRow : Bool → NodeValue
  | tableCell : NodeValue
  deriving Repr, DecidableEq

/-- `nodes.rs` `Ast` plus the arena links of `arena_tree` (spec, section
3): the mutable payload and the parent/children links. -/
structure NodeRec where
  value : NodeValue
  content : List Nat
  startLine : Nat
  startColumn : Nat
  endLine : Nat
  endColumn : Nat
  openFlag : Bool
  lastLineBlank : Bool
  parent : Option Nat
  children : List Nat
  deriving Repr, DecidableEq

instance : Inhabited NodeRec :=
  ⟨⟨.document, [], 0, 0, 0, 0, false, false, none, []⟩⟩

/-- The parser state (`Parser`'s fields, without the feed buffer, which the
line pipeline models separately).  `root` is node 0. -/
structure PState where
  nodes : List NodeRec
  refmap : List (List Nat × Reference)
  current : Nat
  lineNumber : Nat
  offset : Nat
  column : Nat
  firstNonspace : Nat
  firstNonspaceColumn : Nat
  indent : Nat
  blank : Bool
  partiallyConsumedTab : Bool
  lastLineLength : Nat
  extTable : Bool
  deriving Repr, DecidableEq

/-- Arena read. -/
def getNode (st : PState) (id : Nat) : NodeRec :=
  st.nodes.getD id default

/-- Arena write. -/
def setNode (st : PState) (id : Nat) (n : NodeRec) : PState :=
  { st with nodes := st.nodes.set id n }

/-- Arena update. -/
def updNode (st : PState) (id : Nat) (f : NodeRec → NodeRec) : PState :=
  setNode st id (f (getNode st id))

/-- Modelled from the spec (section 3): `make_block` in `nodes.rs` (not
under `src/`) — a fresh block is open, with empty content, at the given
line and column. -/
def makeBlock (value : NodeValue) (lineNumber startColumn : Nat) : NodeRec :=
  ⟨value, [], lineNumber, startColumn, lineNumber, 0, true, false, none, []⟩

/-- `arena_tree` `append` (modelled from the spec, section 3): link a fresh
node as the last child. -/
def appendChildNode (st : PState) (parent : Nat) (n : NodeRec) : PState × Nat :=
  let id := st.nodes.length
  let st1 := { st with nodes := st.nodes ++ [{ n with parent := some parent }] }
  (updNode st1 parent (fun p => { p with children := p.children ++ [id] }), id)

/-- `arena_tree` `detach` (modelled from the spec, section 3). -/
def detachNode (st : PState) (id : Nat) : PState :=
  match (getNode st id).parent with
  | none => st
  | some p =>
    let st1 := updNode st p (fun q => { q with children := q.children.filter (· ≠ id) })
    updNode st1 id (fun q => { q with parent := none })

/-- `arena_tree` `insert_after` (modelled from the spec, section 3): detach
`newSibling` and link it directly after `id` under `id`'s parent. -/
def insertAfterNode (st : PState) (id newSibling : Nat) : PState :=
  let st1 := detachNode st newSibling
  match (getNode st1 id).parent with
  | none => st1
  | some p =>
    let st2 := updNode st1 p (fun q =>
      { q with children :=
          q.children.flatMap (fun c => if c = id then [id, newSibling] else [c]) })
    updNode st2 newSibling (fun q => { q with parent := some p })

/-- Modelled from the spec (section 4.1, phase A): `nodes.rs`
`last_child_is_open`. -/
def lastChildIsOpen (st : PState) (id : Nat) : Bool :=
  match (getNode st id).children.getLast? with
  | some c => (getNode st c).openFlag
  | none => false

/-- Modelled from the spec (section 3, container taxonomy): `nodes.rs`
`can_contain_type`.  Document, block quotes and items hold any block but
documents and items; lists hold items; tables hold rows; rows hold cells;
leaves hold no blocks. -/
def canContainType (parentVal child : NodeValue) : Bool :=
  match child with
  | .document => false
  | _ =>
    match parentVal with
    | .document | .blockQuote | .item _ =>
      match child with
      | .item _ => false
      | _ => true
    | .list _ =>
      match child with
      | .item _ => true
      | _ => false
    | .table _ =>
      match child with
      | .tableRow _ => true
      | _ => false
    | .tableRow _ =>
      match child with
      | .tableCell => true
      | _ => false
    | _ => false

/-- Modelled from the spec (section 4.1, phases B and C): `nodes.rs`
`accepts_lines` — paragraphs, headings and code blocks take raw line
text. -/
def acceptsLines : NodeValue → Bool
  | .paragraph => true
  | .heading _ _ => true
  | .codeBlock .. => true
  | _ => false

/-- The loop of `find_first_nonspace`, returning the first non-space
position and its column; fuel dominates the walk (one byte per step). -/
def ffnGo (line : List Nat) : Nat → Nat → Nat → Nat → Nat × Nat
  | 0, fns, col, _ => (fns, col)
  | fuel + 1, fns, col, ctt =>
    if fns ≥ line.length then (fns, col)
    else if byteAt line fns = 32 then
      ffnGo line fuel (fns + 1) (col + 1) (if ctt - 1 = 0 then TAB_STOP else ctt - 1)
    else if byteAt line fns = 9 then
      ffnGo line fuel (fns + 1) (col + ctt) TAB_STOP
    else (fns, col)

/-- `Parser::find_first_nonspace`. -/
def findFirstNonspace (st : PState) (line : List Nat) : PState :=
  let r := ffnGo line (line.length + 1) st.offset st.column
    (TAB_STOP - st.column % TAB_STOP)
  { st with
    firstNonspace := r.1
    firstNonspaceColumn := r.2
    indent := r.2 - st.column
    blank := decide (r.1 < line.length) && isLineEndChar (byteAt line r.1) }

/-- The loop of `advance_offset` on (offset, column, partially consumed
tab). -/
def advGo (line : List Nat) : Nat → Nat → Nat → Nat → Bool → Bool → Nat × Nat × Bool
  | 0, _, o, c, _, p => (o, c, p)
  | _ + 1, 0, o, c, _, p => (o, c, p)
  | fuel + 1, count + 1, o, c, columns, _ =>
    if byteAt line o = 9 then
      let ctt := TAB_STOP - c % TAB_STOP
      if columns then
        let pct := decide (ctt > count + 1)
        let adv := min (count + 1) ctt
        advGo line fuel (count + 1 - adv) (o + if pct then 0 else 1) (c + adv)
          columns pct
      else advGo line fuel count (o + 1) (c + ctt) columns false
    else advGo line fuel count (o + 1) (c + 1) columns false

/-- `Parser::advance_offset`.  The loop consumes at least one unit of
`count` per iteration (a column tab stop advances by 1–4 columns), so
`count` itself is enough fuel. -/
def advanceOffset (st : PState) (line : List Nat) (count : Nat)
    (columns : Bool) : PState :=
  let r := advGo line count count st.offset st.column columns
    st.partiallyConsumedTab
  { st with offset := r.1, column := r.2.1, partiallyConsumedTab := r.2.2 }

/-- `Parser::parse_block_quote_prefix`. -/
def parseBlockQuoteCont (st : PState) (line : List Nat) : PState × Bool :=
  if st.indent ≤ 3 ∧ byteAt line st.firstNonspace = 62 then
    let st1 := advanceOffset st line (st.indent + 1) true
    let st2 := if isSpaceOrTab (byteAt line st1.offset) then
        advanceOffset st1 line 1 true
      else st1
    (st2, true)
  else (st, false)

/-- `Parser::parse_node_item_prefix`. -/
def parseNodeItemCont (st : PState) (line : List Nat) (container : Nat)
    (nl : NodeList) : PState × Bool :=
  if st.indent ≥ nl.markerOffset + nl.padding then
    (advanceOffset st line (nl.markerOffset + nl.padding) true, true)
  else if st.blank ∧ ¬(getNode st container).children.isEmpty then
    (advanceOffset st line (st.firstNonspace - st.offset) false, true)
  else (st, false)

/-- `Parser::parse_html_block_prefix` (the `assert!(false)` arm for other
types is modelled as a failed continuation; block types are always 1–7). -/
def parseHtmlBlockCont (st : PState) (t : Nat) : Bool :=
  match t with
  | 1 | 2 | 3 | 4 | 5 => true
  | 6 | 7 => !st.blank
  | _ => false

/-- The fence-offset space-skipping loop at the end of
`parse_code_block_prefix`. -/
def fenceOffsetSkip (st : PState) (line : List Nat) : Nat → PState
  | 0 => st
  | i + 1 =>
    if isSpaceOrTab (byteAt line st.offset) then
      fenceOffsetSkip (advanceOffset st line 1 true) line i
    else st


/-- `strings.rs` `unescape`: drop each backslash that precedes a
punctuation byte. -/
def unescapeBytes : List Nat → List Nat
  | 92 :: c :: r => if ispunct c then c :: unescapeBytes r else 92 :: unescapeBytes (c :: r)
  | b :: r => b :: unescapeBytes r
  | [] => []

/-- Modelled from the spec (section 4.1, lists): `nodes.rs`
`ends_with_blank_line` — walk last children through lists and items,
stopping at the first node whose last line was blank.  Fuel dominates the
tree depth. -/
def endsWithBlankLineGo (st : PState) : Nat → Nat → Bool
  | 0, _ => false
  | fuel + 1, id =>
    let n := getNode st id
    if n.lastLineBlank then true
    else
      match n.value with
      | .list _ | .item _ =>
        match n.children.getLast? with
        | some c => endsWithBlankLineGo st fuel c
        | none => false
      | _ => false

/-- The inner (sub-item) loop of the `List` arm of `finalize_borrowed`:
loose when a sub-item ends with a blank line and something follows it
(either a later sub-item or a later item). -/
def subitemsTight (st : PState) (fuel : Nat) (itemHasNext : Bool) :
    List Nat → Bool
  | [] => true
  | [s] => !(endsWithBlankLineGo st fuel s && itemHasNext)
  | s :: rest =>
    !endsWithBlankLineGo st fuel s && subitemsTight st fuel itemHasNext rest

/-- The outer (item) loop of the `List` arm of `finalize_borrowed`. -/
def itemsTight (st : PState) (fuel : Nat) : List Nat → Bool
  | [] => true
  | [item] => subitemsTight st fuel false (getNode st item).children
  | item :: rest =>
    !(getNode st item).lastLineBlank &&
      subitemsTight st fuel true (getNode st item).children &&
      itemsTight st fuel rest

/-- `Parser::parse_reference_inline` delegates to `inlines::Subject`
(`inlines.rs`, which is not under `src/`).  Modelled from the spec
(section 4.3): the extractor fails — returns `none` — whenever no complete
reference definition starts the content.  The inputs analysed in this
development never put a `[` at the head of a paragraph, so the branch it
guards is never taken and the model is inert. -/
def parseRefInline (_refmap : List (List Nat × Reference))
    (_content : List Nat) : Option Nat := none

/-- The reference-extraction loop of the `Paragraph` arm of
`finalize_borrowed`: while the content starts with `[` and a definition
parses, drop the parsed span. -/
def paragraphRefLoop : Nat → PState → List Nat → PState × List Nat
  | 0, st, content => (st, content)
  | fuel + 1, st, content =>
    if !content.isEmpty && byteAt content 0 == 91 then
      match parseRefInline st.refmap content with
      | some pos => paragraphRefLoop fuel st (content.drop pos)
      | none => (st, content)
    else (st, content)

/-- `Parser::finalize_borrowed` (and `finalize`, which borrows and
delegates).  `linebuf` is empty at every call made during line processing
(`feed` drains it before calling `process_line`, and `finish` takes it
out first), so the end-position branch for a nonempty `linebuf` is dead
and the `linebuf.len()` terms are 0.  `entity::unescape_html`
(`entity.rs`, not under `src/`) is modelled from the spec (section 2) as
the identity: the code-block info strings analysed here contain no
entities.  Returns the updated state and the node's parent. -/
def finalizeNode (st : PState) (id : Nat) : PState × Option Nat :=
  let ast0 := getNode st id
  let ast1 := { ast0 with openFlag := false }
  let ast2 :=
    if (match ast1.value with
        | .document => true
        | .codeBlock fenced _ _ _ _ _ => fenced
        | .heading _ setext => setext
        | _ => false) then
      { ast1 with endLine := st.lineNumber, endColumn := 0 }
    else
      { ast1 with endLine := st.lineNumber - 1, endColumn := st.lastLineLength }
  let parent := ast2.parent
  match ast2.value with
  | .paragraph =>
    let pr := paragraphRefLoop (ast2.content.length + 1) st ast2.content
    let st1 := setNode pr.1 id { ast2 with content := pr.2 }
    if isBlank pr.2 then (detachNode st1 id, parent) else (st1, parent)
  | .codeBlock fenced fc fl fo info _lit =>
    if !fenced then
      let newLit := removeTrailingBlankLines ast2.content ++ [10]
      (setNode st id
        { ast2 with value := .codeBlock fenced fc fl fo info newLit, content := [] },
       parent)
    else
      let pos := (ast2.content.takeWhile (fun c => !isLineEndChar c)).length
      let newInfo := unescapeBytes (trimBytes (ast2.content.take pos))
      let pos1 := if byteAt ast2.content pos == 13 then pos + 1 else pos
      let pos2 := if byteAt ast2.content pos1 == 10 then pos1 + 1 else pos1
      (setNode st id
        { ast2 with
            value := .codeBlock fenced fc fl fo newInfo (ast2.content.drop pos2),
            content := [] },
       parent)
  | .htmlBlock t _lit =>
    (setNode st id
      { ast2 with value := .htmlBlock t ast2.content, content := [] }, parent)
  | .list nl =>
    let tight := itemsTight st (st.nodes.length + 1) ast2.children
    (setNode st id { ast2 with value := .list { nl with tight := tight } }, parent)
  | _ => (setNode st id ast2, parent)

/-- The `while !current.same_node(target)` finalization walks in
`add_text_to_container` and `finalize_document`; the parent of a non-root
node always exists on these walks, so the source's `unwrap` is the
default 0 here. -/
def finalizeUntil : Nat → PState → Nat → PState
  | 0, st, _ => st
  | fuel + 1, st, target =>
    if st.current = target then st
    else
      let r := finalizeNode st st.current
      finalizeUntil fuel { r.1 with current := r.2.getD 0 } target

/-- The finalization loop of `Parser::add_child`: close containers until
one can hold the new child. -/
def addChildGo (value : NodeValue) (startColumn : Nat) :
    Nat → PState → Nat → PState × Nat
  | 0, st, parent =>
    appendChildNode st parent (makeBlock value st.lineNumber startColumn)
  | fuel + 1, st, parent =>
    if canContainType (getNode st parent).value value then
      appendChildNode st parent (makeBlock value st.lineNumber startColumn)
    else
      let r := finalizeNode st parent
      addChildGo value startColumn fuel r.1 (r.2.getD 0)

/-- `Parser::add_child`. -/
def addChild (st : PState) (parent : Nat) (value : NodeValue)
    (startColumn : Nat) : PState × Nat :=
  addChildGo value startColumn (st.nodes.length + 1) st parent

/-- `Parser::parse_code_block_prefix`; the second component is the match
result, the third is `should_continue`. -/
def parseCodeBlockCont (st : PState) (line : List Nat) (container : Nat) :
    PState × Bool × Bool :=
  match (getNode st container).value with
  | .codeBlock fenced fenceChar fenceLength fenceOffset _ _ =>
    if !fenced then
      if st.indent ≥ CODE_INDENT then
        (advanceOffset st line CODE_INDENT true, true, true)
      else if st.blank then
        (advanceOffset st line (st.firstNonspace - st.offset) false, true, true)
      else (st, false, true)
    else
      let matched :=
        if st.indent ≤ 3 ∧ byteAt line st.firstNonspace = fenceChar then
          (closeCodeFence (line.drop st.firstNonspace)).getD 0
        else 0
      if matched ≥ fenceLength then
        let st1 := advanceOffset st line matched false
        let r := finalizeNode st1 container
        ({ r.1 with current := r.2.getD 0 }, false, false)
      else
        (fenceOffsetSkip st line fenceOffset, true, true)
  | _ => (st, false, true)

/-- `Parser::check_open_blocks_inner`: descend through open last children,
consuming each container's continuation.  Returns the updated state,
`all_matched`, the deepest matched container and `should_continue`.  Fuel
dominates the tree depth. -/
def checkOpenBlocksInner (st : PState) (line : List Nat) :
    Nat → Nat → PState × Bool × Nat × Bool
  | 0, container => (st, true, container, true)
  | fuel + 1, container =>
    if !lastChildIsOpen st container then (st, true, container, true)
    else
      let child := (getNode st container).children.getLast?.getD 0
      let st1 := findFirstNonspace st line
      match (getNode st1 child).value with
      | .blockQuote =>
        let r := parseBlockQuoteCont st1 line
        if r.2 then checkOpenBlocksInner r.1 line fuel child
        else (r.1, false, child, true)
      | .item nl =>
        let r := parseNodeItemCont st1 line child nl
        if r.2 then checkOpenBlocksInner r.1 line fuel child
        else (r.1, false, child, true)
      | .codeBlock .. =>
        let r := parseCodeBlockCont st1 line child
        if r.2.1 then checkOpenBlocksInner r.1 line fuel child
        else (r.1, false, child, r.2.2)
      | .htmlBlock t _ =>
        if parseHtmlBlockCont st1 t then checkOpenBlocksInner st1 line fuel child
        else (st1, false, child, true)
      | .paragraph =>
        if st1.blank then (st1, false, child, true)
        else checkOpenBlocksInner st1 line fuel child
      | .table _ =>
        if !tableMatches (line.drop st1.firstNonspace) then (st1, false, child, true)
        else checkOpenBlocksInner st1 line fuel child
      | .heading _ _ => (st1, false, child, true)
      | .tableRow _ => (st1, false, child, true)
      | .tableCell => (st1, false, child, true)
      | _ => checkOpenBlocksInner st1 line fuel child

/-- `Parser::check_open_blocks`: run the descent from the root; when not
everything matched, back up to the parent; `none` when processing should
stop (a closing code fence was consumed). -/
def checkOpenBlocks (st : PState) (line : List Nat) :
    PState × Bool × Option Nat :=
  let r := checkOpenBlocksInner st line (st.nodes.length + 1) 0
  let container :=
    if !r.2.1 then (getNode r.1 r.2.2.1).parent.getD 0 else r.2.2.1
  if !r.2.2.2 then (r.1, r.2.1, none) else (r.1, r.2.1, some container)

/-- ASCII string to byte list (all literals used are ASCII). -/
def asciiBytes (s : String) : List Nat :=
  s.data.map Char.toNat

/-- Substring test on byte lists. -/
def containsBytes (sub : List Nat) : List Nat → Bool
  | [] => startsBytes sub []
  | b :: r => startsBytes sub (b :: r) || containsBytes sub r

/-- `html_block_end_1` … `html_block_end_5`: each regex is `\A(?:.*X)`
with `X` free of line ends and `.` not crossing the line's final newline,
hence a substring test on the single line passed in. -/
def htmlBlockEnd (t : Nat) (l : List Nat) : Bool :=
  match t with
  | 1 =>
    containsBytes (asciiBytes "</script>") l ||
      containsBytes (asciiBytes "</pre>") l ||
      containsBytes (asciiBytes "</style>") l
  | 2 => containsBytes (asciiBytes "-->") l
  | 3 => containsBytes (asciiBytes "?>") l
  | 4 => containsBytes [62] l
  | 5 => containsBytes (asciiBytes "]]>") l
  | _ => false

/-- The alignment classification of one marker-row cell in
`try_opening_header`. -/
def cellAlignment (cell : List Nat) : TableAlignment :=
  let left := !cell.isEmpty && byteAt cell 0 == 58
  let right := !cell.isEmpty && byteAt cell (cell.length - 1) == 58
  if left && right then .center
  else if left then .left
  else if right then .right
  else .noAlign

/-- `table.rs` `try_opening_header`.  The source unwraps `row` on the
marker line after `table_start` matched; the `getD` default is never the
value used on the runs analysed (the scan succeeds whenever `table_start`
does). -/
def tryOpeningHeader (st : PState) (container : Nat) (line : List Nat) :
    Option (PState × Nat × Bool) :=
  if !tableStart (line.drop st.firstNonspace) then some (st, container, false)
  else
    match row (getNode st container).content with
    | none => some (st, container, false)
    | some headerRow =>
      let markerRow := (row (line.drop st.firstNonspace)).getD []
      if headerRow.length ≠ markerRow.length then some (st, container, false)
      else
        let alignments := markerRow.map cellAlignment
        let startColumn := (getNode st container).startColumn
        let r1 := addChild st container (.table alignments) startColumn
        let r2 := addChild r1.1 r1.2 (.tableRow true) startColumn
        let st3 := headerRow.foldl (fun s content =>
          let rc := addChild s r2.2 .tableCell startColumn
          updNode rc.1 rc.2 (fun n => { n with content := content })) r2.1
        let st4 := advanceOffset st3 line (line.length - 1 - st3.offset) false
        some (st4, r1.2, true)

/-- `table.rs` `try_opening_row`; the source unwraps `row` on the line,
which succeeded in `matches` during the continuation check. -/
def tryOpeningRow (st : PState) (container : Nat)
    (alignments : List TableAlignment) (line : List Nat) :
    Option (PState × Nat × Bool) :=
  if st.blank then none
  else
    let thisRow := (row line).getD []
    let startColumn := (getNode st container).startColumn
    let r1 := addChild st container (.tableRow false) startColumn
    let cells := rowCells alignments.length thisRow
    let st2 := cells.foldl (fun s content =>
      let rc := addChild s r1.2 .tableCell startColumn
      updNode rc.1 rc.2 (fun n => { n with content := content })) r1.1
    let st3 := advanceOffset st2 line (line.length - 1 - st2.offset) false
    some (st3, r1.2, false)

/-- `table.rs` `try_opening_block`. -/
def tryOpeningBlock (st : PState) (container : Nat) (line : List Nat) :
    Option (PState × Nat × Bool) :=
  match (getNode st container).value with
  | .paragraph => tryOpeningHeader st container line
  | .table aligns => tryOpeningRow st container aligns line
  | _ => none

/-- `lists_match`. -/
def listsMatch (a b : NodeList) : Bool :=
  a.listType == b.listType && a.delimiter == b.delimiter &&
    a.bulletChar == b.bulletChar

/-- Which opener fires: the guard chain of one `open_new_blocks`
iteration, in source order. -/
inductive OpenerChoice where
  | bq : OpenerChoice
  | atx : Nat → OpenerChoice
  | reddit : Nat → OpenerChoice
  | fence : Nat → OpenerChoice
  | html : Nat → OpenerChoice
  | setext : SetextChar → OpenerChoice
  | themBreak : OpenerChoice
  | listItem : Nat → NodeList → OpenerChoice
  | indentedCode : OpenerChoice
  | tableHook : OpenerChoice
  deriving Repr, DecidableEq

/-- The tail of the guard chain of `open_new_blocks` (the branches after
the setext one, in source order): thematic break, list marker, indented
code, and the final `else` (`tableHook`: the table attempt or the loop
break). -/
def openerTail (st : PState) (line : List Nat)
    (containerValue : NodeValue) (allMatched maybeLazy : Bool) :
    OpenerChoice :=
  match (if ¬(st.indent ≥ CODE_INDENT) ∧
        (match containerValue, allMatched with
         | .paragraph, false => false
         | _, _ => true) = true then
      thematicBreak (line.drop st.firstNonspace)
    else none) with
  | some _ => .themBreak
  | none =>
    match (if ¬(st.indent ≥ CODE_INDENT) ∨
          (match containerValue with | .list _ => true | _ => false) = true then
        parseListMarker line st.firstNonspace
          (match containerValue with | .paragraph => true | _ => false)
      else none) with
    | some mnl => .listItem mnl.1 mnl.2
    | none =>
      if st.indent ≥ CODE_INDENT ∧ ¬maybeLazy ∧ st.blank = false then
        .indentedCode
      else .tableHook

/-- The first five guarded openers (block quote handled separately), in
source order: each fires when its scanner matched, earlier ones taking
priority; when none fires the tail chain decides. -/
def chainAux : Option Nat → Option Nat → Option Nat → Option Nat →
    Option SetextChar → OpenerChoice → OpenerChoice
  | some m, _, _, _, _, _ => .atx m
  | none, some m, _, _, _, _ => .reddit m
  | none, none, some m, _, _, _ => .fence m
  | none, none, none, some m, _, _ => .html m
  | none, none, none, none, some sc, _ => .setext sc
  | none, none, none, none, none, x => x

/-- The guard chain of `open_new_blocks`, one loop iteration: which
opener fires for the current position and container. -/
def openerDispatch (st : PState) (line : List Nat)
    (containerValue : NodeValue) (allMatched maybeLazy : Bool) :
    OpenerChoice :=
  if ¬(st.indent ≥ CODE_INDENT) ∧ byteAt line st.firstNonspace = 62 then .bq
  else
    chainAux
      (if ¬(st.indent ≥ CODE_INDENT) then
        atxHeadingStart (line.drop st.firstNonspace) else none)
      (if ¬(st.indent ≥ CODE_INDENT) then
        redditAtxHeadingStart (line.drop st.firstNonspace) else none)
      (if ¬(st.indent ≥ CODE_INDENT) then
        openCodeFence (line.drop st.firstNonspace) else none)
      (if ¬(st.indent ≥ CODE_INDENT) then
        match htmlBlockStart (line.drop st.firstNonspace) with
        | some m => some m
        | none =>
          match containerValue with
          | .paragraph => none
          | _ => htmlBlockStart7 (line.drop st.firstNonspace)
      else none)
      (if ¬(st.indent ≥ CODE_INDENT) then
        match containerValue with
        | .paragraph => setextHeadingLine (line.drop st.firstNonspace)
        | _ => none
      else none)
      (openerTail st line containerValue allMatched maybeLazy)

/-- The shared body of the ATX and reddit ATX opener arms (the source
duplicates the code verbatim). -/
def atxAction (st : PState) (line : List Nat) (container : Nat)
    (matched : Nat) : PState × Nat :=
  let headingStart := st.firstNonspace
  let st1 := advanceOffset st line (headingStart + matched - st.offset) false
  let r := addChild st1 container (.heading 0 false) (headingStart + 1)
  let hashpos := st1.firstNonspace +
    ((line.drop st1.firstNonspace).takeWhile (fun b => b != 35)).length
  let level := ((line.drop hashpos).takeWhile (fun b => b == 35)).length
  (updNode r.1 r.2 (fun n => { n with value := .heading level false }), r.2)

/-- The space-consuming loop after a list marker (`while self.column -
save_column <= 5 && is_space_or_tab …`); the column grows each step, so
fuel 8 dominates. -/
def listSpacesGo (line : List Nat) (saveColumn : Nat) :
    Nat → PState → PState
  | 0, st => st
  | fuel + 1, st =>
    if st.column - saveColumn ≤ 5 ∧ isSpaceOrTab (byteAt line st.offset) then
      listSpacesGo line saveColumn fuel (advanceOffset st line 1 true)
    else st

/-- The list-marker opener arm of `open_new_blocks`: consume the marker
and its padding, then open a list (unless a matching one is open) and an
item. -/
def listItemAction (st : PState) (line : List Nat) (container : Nat)
    (matched : Nat) (nl0 : NodeList) : PState × Nat :=
  let st1 := advanceOffset st line (st.firstNonspace + matched - st.offset) false
  let savePct := st1.partiallyConsumedTab
  let saveOffset := st1.offset
  let saveColumn := st1.column
  let st2 := listSpacesGo line saveColumn 8 st1
  let i := st2.column - saveColumn
  let pr :=
    if i ≥ 5 ∨ i < 1 ∨ isLineEndChar (byteAt line st2.offset) then
      let stR :=
        { st2 with
            offset := saveOffset
            column := saveColumn
            partiallyConsumedTab := savePct }
      let stR := if i > 0 then advanceOffset stR line 1 true else stR
      (stR, { nl0 with padding := matched + 1 })
    else (st2, { nl0 with padding := matched + i })
  let st3 := pr.1
  let nl2 := { pr.2 with markerOffset := st3.indent }
  let r4 :=
    if (match (getNode st3 container).value with
        | .list mnl => !listsMatch nl2 mnl
        | _ => true) then
      addChild st3 container (.list nl2) (st3.firstNonspace + 1)
    else (st3, container)
  addChild r4.1 r4.2 (.item nl2) (r4.1.firstNonspace + 1)

/-- The loop of `open_new_blocks`: open new containers until one accepts
lines or nothing more opens.  Fuel dominates the iteration count (each
iteration either stops or consumes input, with a bounded tail). -/
def openNewBlocksGo (line : List Nat) (allMatched : Bool) :
    Nat → PState → Nat → Bool → PState × Nat
  | 0, st, container, _ => (st, container)
  | fuel + 1, st0, container, maybeLazy =>
    match (getNode st0 container).value with
    | .codeBlock .. => (st0, container)
    | .htmlBlock .. => (st0, container)
    | _ =>
      let st := findFirstNonspace st0 line
      let step : Option (PState × Nat) :=
        match openerDispatch st line (getNode st container).value allMatched
            maybeLazy with
        | .bq =>
          let bqStart := st.firstNonspace
          let s1 := advanceOffset st line (st.firstNonspace + 1 - st.offset) false
          let s2 := if isSpaceOrTab (byteAt line s1.offset) then
              advanceOffset s1 line 1 true
            else s1
          some (addChild s2 container .blockQuote (bqStart + 1))
        | .atx m => some (atxAction st line container m)
        | .reddit m => some (atxAction st line container m)
        | .fence m =>
          let fns := st.firstNonspace
          let off := st.offset
          let r := addChild st container
            (.codeBlock true (byteAt line fns) m (fns - off) [] []) (fns + 1)
          some (advanceOffset r.1 line (fns + m - off) false, r.2)
        | .html t =>
          some (addChild st container (.htmlBlock t []) (st.firstNonspace + 1))
        | .setext sc =>
          let s1 := updNode st container (fun n =>
            { n with value :=
                .heading (match sc with | .equals => 1 | .hyphen => 2) true })
          some (advanceOffset s1 line (line.length - 1 - s1.offset) false,
                container)
        | .themBreak =>
          let r := addChild st container .themBreak (st.firstNonspace + 1)
          some (advanceOffset r.1 line (line.length - 1 - r.1.offset) false, r.2)
        | .listItem m nl => some (listItemAction st line container m nl)
        | .indentedCode =>
          let s1 := advanceOffset st line CODE_INDENT true
          some (addChild s1 container (.codeBlock false 0 0 0 [] [])
            (s1.offset + 1))
        | .tableHook =>
          let res := if ¬(st.indent ≥ CODE_INDENT) ∧ st.extTable then
              tryOpeningBlock st container line
            else none
          match res with
          | some (st1, newContainer, replace) =>
            if replace then
              let st2 := insertAfterNode st1 container newContainer
              some (detachNode st2 container, newContainer)
            else some (st1, newContainer)
          | none => none
      match step with
      | none => (st, container)
      | some (st1, c1) =>
        if acceptsLines (getNode st1 c1).value then (st1, c1)
        else openNewBlocksGo line allMatched fuel st1 c1 false

/-- `Parser::open_new_blocks`; `maybe_lazy` starts true exactly when the
current node is a paragraph. -/
def openNewBlocks (st : PState) (container : Nat) (line : List Nat)
    (allMatched : Bool) : PState × Nat :=
  let maybeLazy :=
    match (getNode st st.current).value with
    | .paragraph => true
    | _ => false
  openNewBlocksGo line allMatched (line.length + 16) st container maybeLazy

/-- `Parser::add_line`: append the line from the current offset to the
node's content, expanding a partially consumed tab into spaces. -/
def addLine (st : PState) (id : Nat) (line : List Nat) : PState :=
  let pr :=
    if st.partiallyConsumedTab then
      ({ st with offset := st.offset + 1 },
       List.replicate (TAB_STOP - st.column % TAB_STOP) 32)
    else (st, ([] : List Nat))
  let st1 := pr.1
  let tail := if st1.offset < line.length then line.drop st1.offset else []
  updNode st1 id (fun n => { n with content := n.content ++ pr.2 ++ tail })

/-- The ancestor walk of `add_text_to_container` that clears
`last_line_blank` above the container. -/
def clearAncestorsBlank : Nat → PState → Nat → PState
  | 0, st, _ => st
  | fuel + 1, st, tmp =>
    match (getNode st tmp).parent with
    | none => st
    | some p =>
      clearAncestorsBlank fuel
        (updNode st p (fun n => { n with lastLineBlank := false })) p

/-- `Parser::add_text_to_container`. -/
def addTextToContainer (st0 : PState) (container lastMatched : Nat)
    (line : List Nat) : PState :=
  let st := findFirstNonspace st0 line
  let st :=
    if st.blank then
      match (getNode st container).children.getLast? with
      | some lastChild =>
        updNode st lastChild (fun n => { n with lastLineBlank := true })
      | none => st
    else st
  let llb := st.blank &&
    (match (getNode st container).value with
     | .blockQuote => false
     | .heading _ _ => false
     | .themBreak => false
     | .codeBlock fenced _ _ _ _ _ => !fenced
     | .item _ =>
       !(getNode st container).children.isEmpty ||
         (getNode st container).startLine != st.lineNumber
     | _ => true)
  let st := updNode st container (fun n => { n with lastLineBlank := llb })
  let st := clearAncestorsBlank (st.nodes.length + 1) st container
  if ¬(st.current = lastMatched) ∧ container = lastMatched ∧
      st.blank = false ∧ (getNode st st.current).value = .paragraph then
    addLine st st.current line
  else
    let st := finalizeUntil (st.nodes.length + 1) st lastMatched
    match (getNode st container).value with
    | .codeBlock .. => { addLine st container line with current := container }
    | .htmlBlock t _ =>
      let st1 := addLine st container line
      let pr :=
        if htmlBlockEnd t (line.drop st1.firstNonspace) then
          let r := finalizeNode st1 container
          (r.1, r.2.getD 0)
        else (st1, container)
      { pr.1 with current := pr.2 }
    | _ =>
      if st.blank then { st with current := container }
      else if acceptsLines (getNode st container).value then
        let line1 :=
          match (getNode st container).value with
          | .heading _ setext => if !setext then chopTrailingHashtags line else line
          | _ => line
        let st1 := advanceOffset st line1 (st.firstNonspace - st.offset) false
        { addLine st1 container line1 with current := container }
      else
        let r := addChild st container .paragraph (st.firstNonspace + 1)
        let st2 := advanceOffset r.1 line (r.1.firstNonspace - r.1.offset) false
        { addLine st2 r.2 line with current := r.2 }

/-- `Parser::process_line`. -/
def processLine (st0 : PState) (rawLine : List Nat) : PState :=
  let line :=
    if rawLine.isEmpty || !isLineEndChar (rawLine.getLast?.getD 0) then
      rawLine ++ [10]
    else rawLine
  let st :=
    { st0 with
        offset := 0
        column := 0
        blank := false
        partiallyConsumedTab := false }
  let st :=
    if st.lineNumber = 0 ∧ line.length ≥ 3 ∧ startsBytes [239, 187, 191] line then
      { st with offset := st.offset + 3 }
    else st
  let st := { st with lineNumber := st.lineNumber + 1 }
  let r := checkOpenBlocks st line
  let st :=
    match r.2.2 with
    | none => r.1
    | some lastMatched =>
      let saveCurrent := r.1.current
      let ro := openNewBlocks r.1 lastMatched line r.2.1
      if saveCurrent = ro.1.current then
        addTextToContainer ro.1 ro.2 lastMatched line
      else ro.1
  let len := line.length
  let len := if len > 0 ∧ byteAt line (len - 1) = 10 then len - 1 else len
  let len := if len > 0 ∧ byteAt line (len - 1) = 13 then len - 1 else len
  { st with lastLineLength := len }

/-- The parser's initial state (`parse_document`'s root node and
`Parser::new`'s field values). -/
def initialState (extTable : Bool) : PState :=
  { nodes := [⟨.document, [], 0, 0, 0, 0, true, false, none, []⟩],
    refmap := [], current := 0, lineNumber := 0, offset := 0, column := 0,
    firstNonspace := 0, firstNonspaceColumn := 0, indent := 0, blank := false,
    partiallyConsumedTab := false, lastLineLength := 0, extTable := extTable }

/-- `Parser::finalize_document`: close the spine from `current` up to the
root, then the root.  The inline pass (`process_inlines`) and the text
post-pass build inline content inside finished blocks; they do not create
or reopen block nodes, so they are outside this block-level model. -/
def finalizeDocument (st : PState) : PState :=
  let st1 := finalizeUntil (st.nodes.length + 1) st 0
  (finalizeNode st1 0).1

/-- `parse_document` over explicit feed chunks: split into lines (the
feed stage; `none` exactly when it panics), process each line, and
finalize as `finish` does. -/
def parseChunks (extTable : Bool) (chunks : List (List Nat)) :
    Option PState :=
  (pipelineLines chunks).map
    (fun lines => finalizeDocument (lines.foldl processLine (initialState extTable)))

/-- `parse_document` on a single buffer. -/
def parseDoc (extTable : Bool) (s : List Nat) : Option PState :=
  parseChunks extTable [s]

theorem scanEol_decomp (l : List Nat) : (scanEol l).1 ++ (scanEol l).2 = l := by
  induction l with
  | nil => rfl
  | cons b r ih =>
    by_cases h : (isLineEndChar b || b == 0) = true
    · simp [scanEol, h]
    · simp only [scanEol, h, if_false, Bool.false_eq_true, List.cons_append]
      exact congrArg (b :: ·) ih

theorem scanEol_clean (l : List Nat) : ∀ b ∈ (scanEol l).1, cleanByte b := by
  induction l with
  | nil => simp [scanEol]
  | cons b r ih =>
    by_cases h : (isLineEndChar b || b == 0) = true
    · simp [scanEol, h]
    · simp only [scanEol, h, if_false, Bool.false_eq_true, List.mem_cons]
      rintro c (rfl | hc)
      · simp only [Bool.or_eq_true, beq_iff_eq, not_or] at h
        exact ⟨by simpa using h.1, by simpa using h.2⟩
      · exact ih c hc

theorem scanEol_rest_special (l : List Nat) :
    ∀ t r, (scanEol l).2 = t :: r → isLineEndChar t = true ∨ t = 0 := by
  induction l with
  | nil => simp [scanEol]
  | cons b r ih =>
    by_cases h : (isLineEndChar b || b == 0) = true
    · intro t s ht
      simp only [scanEol, h, if_true] at ht
      injection ht with h1 h2
      subst h1
      simpa using h
    · intro t s ht
      simp only [scanEol, h, if_false, Bool.false_eq_true] at ht
      exact ih t s ht

theorem skipTerm_length (l : List Nat) :
    (skipTerm l).1.length ≤ l.length := by
  unfold skipTerm
  by_cases h : (l.head? == some 13) = true
  · simp only [h, if_true]
    by_cases h2 : (l.tail.head? == some 10) = true
    · simp only [h2, if_true]
      calc l.tail.tail.length ≤ l.tail.length := by
            cases l.tail <;> simp
        _ ≤ l.length := by cases l <;> simp
    · simp only [h2, if_false, Bool.false_eq_true]
      cases l <;> simp
  · simp only [h, if_false, Bool.false_eq_true]
    by_cases h2 : (l.head? == some 10) = true
    · simp only [h2, if_true]
      cases l <;> simp
    · simp only [h2, if_false, Bool.false_eq_true]
      exact Nat.le_refl _

theorem normLine_clean (l : List Nat) (h : ∀ b ∈ l, isLineEndChar b = false) :
    normLine l = l ++ [10] := by
  unfold normLine
  cases hl : l.getLast? with
  | none => rfl
  | some b =>
    obtain ⟨hne, rfl⟩ := List.mem_getLast?_eq_getLast (l := l) (x := b) (by rw [hl]; rfl)
    simp [h _ (List.getLast_mem hne)]

theorem normLine_lf (l : List Nat) : normLine (l ++ [10]) = l ++ [10] := by
  unfold normLine
  simp [List.getLast?_append, isLineEndChar]

theorem fffd_clean : ∀ b ∈ fffd, cleanByte b := by
  intro b hb
  fin_cases hb <;> exact ⟨rfl, by simp⟩

theorem lineSplit_nil (m : Mode) (pend : List Nat) :
    lineSplit m pend [] = ([], pend, m) := rfl

theorem lineStep_base (ls : List (List Nat)) (pend : List Nat) (m : Mode)
    (b : Nat) :
    lineStep (ls, pend, m) b =
      (ls ++ (lineStep ([], pend, m) b).1, (lineStep ([], pend, m) b).2) := by
  unfold lineStep
  split_ifs <;> simp

theorem foldl_lineStep_base (s : List Nat) (ls : List (List Nat))
    (pend : List Nat) (m : Mode) :
    s.foldl lineStep (ls, pend, m) =
      (ls ++ (s.foldl lineStep ([], pend, m)).1,
        (s.foldl lineStep ([], pend, m)).2) := by
  induction s generalizing ls pend m with
  | nil => simp
  | cons b r ih =>
    rw [List.foldl_cons, List.foldl_cons, lineStep_base]
    rcases h : lineStep ([], pend, m) b with ⟨ls1, pend1, m1⟩
    rw [ih (ls ++ ls1) pend1 m1, ih ls1 pend1 m1]
    simp

theorem lineSplit_c_eq_n (pend : List Nat) (b : Nat) (r : List Nat)
    (hb : b ≠ 10) :
    lineSplit .c pend (b :: r) = lineSplit .n pend (b :: r) := by
  have : lineStep ([], pend, .c) b = lineStep ([], pend, .n) b := by
    unfold lineStep
    split_ifs <;> simp_all
  simp only [lineSplit, List.foldl_cons, this]

theorem lineSplit_u_eq_n (pend : List Nat) (b : Nat) (r : List Nat)
    (hb : b ≠ 10) (hc : b ≠ 13) :
    lineSplit .u pend (b :: r) = lineSplit .n pend (b :: r) := by
  have : lineStep ([], pend, .u) b = lineStep ([], pend, .n) b := by
    unfold lineStep
    split_ifs <;> simp_all
  simp only [lineSplit, List.foldl_cons, this]

theorem lineSplit_cons_clean (pend : List Nat) (b : Nat) (r : List Nat)
    (hb : cleanByte b) :
    lineSplit .n pend (b :: r) = lineSplit .n (pend ++ [b]) r := by
  have h10 : b ≠ 10 := fun e => by simp [e, cleanByte, isLineEndChar] at hb
  have h13 : b ≠ 13 := fun e => by simp [e, cleanByte, isLineEndChar] at hb
  have : lineStep ([], pend, .n) b = ([], pend ++ [b], .n) := by
    unfold lineStep
    rw [if_neg (by simp [h10]), if_neg (by simp [h10]), if_neg (by simp [h13]),
      if_neg h10, if_neg h13, if_neg hb.2]
  simp only [lineSplit, List.foldl_cons, this]

theorem lineSplit_clean_append (seg : List Nat) (h : ∀ b ∈ seg, cleanByte b)
    (pend r : List Nat) :
    lineSplit .n pend (seg ++ r) = lineSplit .n (pend ++ seg) r := by
  induction seg generalizing pend with
  | nil => simp
  | cons b s ih =>
    rw [List.cons_append, lineSplit_cons_clean pend b (s ++ r) (h b (by simp)),
      ih (fun c hc => h c (by simp [hc])) (pend ++ [b])]
    simp

theorem lineSplit_n_10 (pend r : List Nat) :
    lineSplit .n pend (10 :: r) =
      ((pend ++ [10]) :: (lineSplit .n [] r).1, (lineSplit .n [] r).2) := by
  have : lineStep ([], pend, .n) 10 = ([pend ++ [10]], [], .n) := by
    unfold lineStep
    simp
  simp only [lineSplit, List.foldl_cons, this]
  rw [foldl_lineStep_base r [pend ++ [10]] [] .n]
  simp

theorem lineSplit_n_13 (pend r : List Nat) :
    lineSplit .n pend (13 :: r) =
      ((pend ++ [10]) :: (lineSplit .c [] r).1, (lineSplit .c [] r).2) := by
  have : lineStep ([], pend, .n) 13 = ([pend ++ [10]], [], .c) := by
    unfold lineStep
    simp
  simp only [lineSplit, List.foldl_cons, this]
  rw [foldl_lineStep_base r [pend ++ [10]] [] .c]
  simp

theorem lineSplit_n_0 (pend r : List Nat) :
    lineSplit .n pend (0 :: r) = lineSplit .u (pend ++ fffd) r := by
  have : lineStep ([], pend, .n) 0 = ([], pend ++ fffd, .u) := by
    unfold lineStep
    simp
  simp only [lineSplit, List.foldl_cons, this]

theorem lineSplit_c_10 (pend r : List Nat) :
    lineSplit .c pend (10 :: r) = lineSplit .n pend r := by
  have : lineStep ([], pend, .c) 10 = ([], pend, .n) := by
    unfold lineStep
    simp
  simp only [lineSplit, List.foldl_cons, this]

theorem lineSplit_u_10 (pend r : List Nat) :
    lineSplit .u pend (10 :: r) = lineSplit .n pend r := by
  have : lineStep ([], pend, .u) 10 = ([], pend, .n) := by
    unfold lineStep
    simp
  simp only [lineSplit, List.foldl_cons, this]

theorem lineSplit_u_13 (pend r : List Nat) :
    lineSplit .u pend (13 :: r) = lineSplit .c pend r := by
  have : lineStep ([], pend, .u) 13 = ([], pend, .c) := by
    unfold lineStep
    simp
  simp only [lineSplit, List.foldl_cons, this]

theorem lineSplit_append (m : Mode) (pend a b : List Nat) :
    lineSplit m pend (a ++ b) =
      ((lineSplit m pend a).1 ++
          (lineSplit (lineSplit m pend a).2.2 (lineSplit m pend a).2.1 b).1,
        (lineSplit (lineSplit m pend a).2.2 (lineSplit m pend a).2.1 b).2) := by
  conv_lhs => rw [lineSplit, List.foldl_append]
  rcases h : lineSplit m pend a with ⟨ls1, p1, m1⟩
  have : List.foldl lineStep ([], pend, m) a = (ls1, p1, m1) := h
  rw [this, foldl_lineStep_base b ls1 p1 m1]
  simp [lineSplit]

theorem lineStep_mode (st : List (List Nat) × List Nat × Mode) (b : Nat) :
    (lineStep st b).2.2 = modeOf b := by
  unfold lineStep modeOf
  split_ifs <;> simp_all

theorem lineSplit_last_mode (m : Mode) (pend s : List Nat) (b : Nat) :
    (lineSplit m pend (s ++ [b])).2.2 = modeOf b := by
  unfold lineSplit
  rw [List.foldl_append]
  simp [lineStep_mode]

theorem feedLoopF_nil (fuel : Nat) (eof : Bool) (buf : List Nat) :
    feedLoopF fuel eof [] buf = ([], buf, false) := by
  cases fuel <;> rfl

theorem skipTerm_length_le (t : Nat) (l : List Nat) (ht : t = 10 ∨ t = 13) :
    (skipTerm (t :: l)).1.length ≤ l.length := by
  rcases ht with rfl | rfl
  · simp [skipTerm]
  · simp only [skipTerm]
    cases l with
    | nil => simp
    | cons c r =>
      by_cases hc : c = 10
      · simp [hc]
      · simp [hc]

/-- The loop of `feed` with `eof = false` refines the byte-at-a-time
machine started in normal mode: its lines (normalised as `process_line`
will) are the machine's completed lines, its final `linebuf` is the
machine's pending line, its CR flag records whether the machine ended in
CR mode, and the final `linebuf` again holds only clean bytes. -/
theorem feedLoopF_false_spec :
    ∀ (fuel : Nat) (rem buf : List Nat), rem.length ≤ fuel →
    (∀ b ∈ buf, cleanByte b) →
    (feedLoopF fuel false rem buf).1.map normLine = (lineSplit .n buf rem).1 ∧
    (feedLoopF fuel false rem buf).2.1 = (lineSplit .n buf rem).2.1 ∧
    ((feedLoopF fuel false rem buf).2.2 = true ↔
      (lineSplit .n buf rem).2.2 = .c) ∧
    (∀ b ∈ (feedLoopF fuel false rem buf).2.1, cleanByte b) := by
  intro fuel
  induction fuel with
  | zero =>
    intro rem buf h hb
    have hrem : rem = [] := List.eq_nil_of_length_eq_zero (Nat.le_zero.mp h)
    subst hrem
    rw [feedLoopF_nil, lineSplit_nil]
    exact ⟨rfl, rfl, by simp, hb⟩
  | succ fuel ih =>
    intro rem buf h hb
    cases rem with
    | nil =>
      rw [feedLoopF_nil, lineSplit_nil]
      exact ⟨rfl, rfl, by simp, hb⟩
    | cons b0 r0 =>
      rcases hscan : scanEol (b0 :: r0) with ⟨seg, rest⟩
      have hdec : seg ++ rest = b0 :: r0 := by
        have hx := scanEol_decomp (b0 :: r0)
        rw [hscan] at hx
        exact hx
      have hcl : ∀ c ∈ seg, cleanByte c := by
        intro c hc
        have hx := scanEol_clean (b0 :: r0)
        rw [hscan] at hx
        exact hx c hc
      have hbs : ∀ c ∈ buf ++ seg, cleanByte c := by
        intro c hc
        rcases List.mem_append.mp hc with h1 | h1
        · exact hb c h1
        · exact hcl c h1
      have hlen : seg.length + rest.length = r0.length + 1 := by
        have := congrArg List.length hdec
        simpa using this
      have hspec : lineSplit .n buf (b0 :: r0) = lineSplit .n (buf ++ seg) rest := by
        rw [← hdec]
        exact lineSplit_clean_append seg hcl buf rest
      rw [hspec]
      cases rest with
      | nil =>
        have hfe : feedLoopF (fuel + 1) false (b0 :: r0) buf =
            ([], buf ++ seg, false) := by
          simp only [feedLoopF, hscan]
          rfl
        rw [hfe, lineSplit_nil]
        exact ⟨rfl, rfl, by simp, hbs⟩
      | cons t rest1 =>
        have hts : isLineEndChar t = true ∨ t = 0 := by
          apply scanEol_rest_special (b0 :: r0) t rest1
          rw [hscan]
        by_cases ht0 : t = 0
        · -- NUL branch
          subst ht0
          have hbs' : ∀ c ∈ buf ++ seg ++ fffd, cleanByte c := by
            intro c hc
            rcases List.mem_append.mp hc with h1 | h1
            · exact hbs c h1
            · exact fffd_clean c h1
          have hfe : feedLoopF (fuel + 1) false (b0 :: r0) buf =
              ((feedLoopF fuel false (skipTerm rest1).1 (buf ++ seg ++ fffd)).1,
                (feedLoopF fuel false (skipTerm rest1).1 (buf ++ seg ++ fffd)).2.1,
                (feedLoopF fuel false (skipTerm rest1).1 (buf ++ seg ++ fffd)).2.2 ||
                  (skipTerm rest1).2) := by
            simp only [feedLoopF, hscan]
            rfl
          rw [hfe, lineSplit_n_0]
          rcases rest1 with _ | ⟨b1, rest2⟩
          · rw [show skipTerm [] = ([], false) from rfl]
            rw [feedLoopF_nil, lineSplit_nil]
            exact ⟨rfl, rfl, by simp, hbs'⟩
          · by_cases hb13 : b1 = 13
            · subst hb13
              rcases rest2 with _ | ⟨b2, rest3⟩
              · rw [show skipTerm [13] = ([], true) from rfl]
                rw [feedLoopF_nil, lineSplit_u_13, lineSplit_nil]
                exact ⟨rfl, rfl, by simp, hbs'⟩
              · by_cases hb10 : b2 = 10
                · subst hb10
                  rw [show skipTerm (13 :: 10 :: rest3) = (rest3, false) from rfl]
                  rw [lineSplit_u_13, lineSplit_c_10]
                  have := ih rest3 (buf ++ seg ++ fffd) (by simp only [List.length_cons] at hlen h ⊢; omega) hbs'
                  exact ⟨by simpa using this.1, this.2.1, by simpa using this.2.2.1,
                    this.2.2.2⟩
                · rw [show skipTerm (13 :: b2 :: rest3) = (b2 :: rest3, false) by
                    simp [skipTerm, hb10]]
                  rw [lineSplit_u_13, lineSplit_c_eq_n _ _ _ hb10]
                  have := ih (b2 :: rest3) (buf ++ seg ++ fffd) (by simp only [List.length_cons] at hlen h ⊢; omega) hbs'
                  exact ⟨by simpa using this.1, this.2.1, by simpa using this.2.2.1,
                    this.2.2.2⟩
            · by_cases hb10 : b1 = 10
              · subst hb10
                rw [show skipTerm (10 :: rest2) = (rest2, false) from rfl]
                rw [lineSplit_u_10]
                have := ih rest2 (buf ++ seg ++ fffd) (by simp only [List.length_cons] at hlen h ⊢; omega) hbs'
                exact ⟨by simpa using this.1, this.2.1, by simpa using this.2.2.1,
                  this.2.2.2⟩
              · rw [show skipTerm (b1 :: rest2) = (b1 :: rest2, false) by
                  simp [skipTerm, hb10, hb13]]
                rw [lineSplit_u_eq_n _ _ _ hb10 hb13]
                have := ih (b1 :: rest2) (buf ++ seg ++ fffd) (by simp only [List.length_cons] at hlen h ⊢; omega) hbs'
                exact ⟨by simpa using this.1, this.2.1, by simpa using this.2.2.1,
                  this.2.2.2⟩
        · -- line-end branch
          have htle : isLineEndChar t = true := by
            rcases hts with h1 | h1
            · exact h1
            · exact absurd h1 ht0
          have hline : normLine (if ¬buf.isEmpty then buf ++ seg
              else if t == 10 then seg ++ [10] else seg) = buf ++ seg ++ [10] := by
            by_cases hbe : buf.isEmpty
            · have : buf = [] := List.isEmpty_iff.mp hbe
              subst this
              by_cases ht10 : t = 10
              · simp [ht10, normLine_lf]
              · have : (t == 10) = false := by simp [ht10]
                simp only [hbe, not_true, if_false, this, List.nil_append]
                exact normLine_clean seg fun c hc => (hcl c hc).1
            · simp only [hbe, not_false_iff, if_true]
              exact normLine_clean (buf ++ seg) fun c hc => (hbs c hc).1
          have hfe : feedLoopF (fuel + 1) false (b0 :: r0) buf =
              ((if ¬buf.isEmpty then buf ++ seg
                  else if t == 10 then seg ++ [10] else seg) ::
                  (feedLoopF fuel false (skipTerm (t :: rest1)).1 []).1,
                (feedLoopF fuel false (skipTerm (t :: rest1)).1 []).2.1,
                (feedLoopF fuel false (skipTerm (t :: rest1)).1 []).2.2 ||
                  (skipTerm (t :: rest1)).2) := by
            simp only [feedLoopF, hscan, ht0, if_false]
            simp [ht0]
          rw [hfe]
          by_cases ht10 : t = 10
          · subst ht10
            rw [show skipTerm (10 :: rest1) = (rest1, false) from rfl]
            rw [lineSplit_n_10]
            have := ih rest1 [] (by simp only [List.length_cons] at hlen h ⊢; omega) (by simp)
            refine ⟨?_, this.2.1, by simpa using this.2.2.1, this.2.2.2⟩
            simp only [List.map_cons, hline, this.1]
          · have ht13 : t = 13 := by
              simp only [isLineEndChar, Bool.or_eq_true, beq_iff_eq] at htle
              rcases htle with h1 | h1
              · exact absurd h1 ht10
              · exact h1
            subst ht13
            rw [lineSplit_n_13]
            rcases rest1 with _ | ⟨b1, rest2⟩
            · rw [show skipTerm [13] = ([], true) from rfl]
              rw [feedLoopF_nil, lineSplit_nil]
              refine ⟨?_, rfl, by simp, by simp⟩
              simp only [List.map_cons, List.map_nil, hline]
            · by_cases hb10 : b1 = 10
              · subst hb10
                rw [show skipTerm (13 :: 10 :: rest2) = (rest2, false) from rfl]
                rw [lineSplit_c_10]
                have := ih rest2 [] (by simp only [List.length_cons] at hlen h ⊢; omega) (by simp)
                refine ⟨?_, this.2.1, by simpa using this.2.2.1, this.2.2.2⟩
                simp only [List.map_cons, hline, this.1]
              · rw [show skipTerm (13 :: b1 :: rest2) = (b1 :: rest2, false) by
                  simp [skipTerm, hb10]]
                rw [lineSplit_c_eq_n _ _ _ hb10]
                have := ih (b1 :: rest2) [] (by simp only [List.length_cons] at hlen h ⊢; omega) (by simp)
                refine ⟨?_, this.2.1, by simpa using this.2.2.1, this.2.2.2⟩
                simp only [List.map_cons, hline, this.1]

/-- Feeding with `eof = true` only moves the final partial line from
`linebuf` into the emitted lines; the combined output (emitted lines plus
leftover) is the same as with `eof = false`. -/
theorem feedLoopF_true_combined :
    ∀ (fuel : Nat) (rem buf : List Nat), rem.length ≤ fuel →
    feedOut (feedLoopF fuel true rem buf) =
      feedOut (feedLoopF fuel false rem buf) := by
  intro fuel
  induction fuel with
  | zero =>
    intro rem buf h
    have hrem : rem = [] := List.eq_nil_of_length_eq_zero (Nat.le_zero.mp h)
    subst hrem
    rw [feedLoopF_nil, feedLoopF_nil]
  | succ fuel ih =>
    intro rem buf h
    cases rem with
    | nil => rw [feedLoopF_nil, feedLoopF_nil]
    | cons b0 r0 =>
      rcases hscan : scanEol (b0 :: r0) with ⟨seg, rest⟩
      have hdec : seg ++ rest = b0 :: r0 := by
        have hx := scanEol_decomp (b0 :: r0)
        rw [hscan] at hx
        exact hx
      have hlen : seg.length + rest.length = r0.length + 1 := by
        have := congrArg List.length hdec
        simpa using this
      cases rest with
      | nil =>
        have hseg : seg = b0 :: r0 := by simpa using hdec
        have h1 : feedLoopF (fuel + 1) true (b0 :: r0) buf =
            ([if buf.isEmpty then seg else buf ++ seg], [], false) := by
          simp only [feedLoopF, hscan]
          rfl
        have h2 : feedLoopF (fuel + 1) false (b0 :: r0) buf =
            ([], buf ++ seg, false) := by
          simp only [feedLoopF, hscan]
          rfl
        have hne : (buf ++ seg).isEmpty = false := by
          simp [hseg]
        have hexp : (if buf.isEmpty then seg else buf ++ seg) = buf ++ seg := by
          by_cases hbe : buf.isEmpty
          · simp [List.isEmpty_iff.mp hbe, hbe]
          · simp [hbe]
        rw [h1, h2, hexp]
        simp [feedOut, hne]
      | cons t rest1 =>
        by_cases ht0 : t = 0
        · subst ht0
          have hfe : ∀ eo, feedLoopF (fuel + 1) eo (b0 :: r0) buf =
              ((feedLoopF fuel eo (skipTerm rest1).1 (buf ++ seg ++ fffd)).1,
                (feedLoopF fuel eo (skipTerm rest1).1 (buf ++ seg ++ fffd)).2.1,
                (feedLoopF fuel eo (skipTerm rest1).1 (buf ++ seg ++ fffd)).2.2 ||
                  (skipTerm rest1).2) := by
            intro eo
            simp only [feedLoopF, hscan]
            rfl
          rw [hfe true, hfe false]
          have hsl := skipTerm_length rest1
          have := ih (skipTerm rest1).1 (buf ++ seg ++ fffd)
            (by simp only [List.length_cons] at hlen h; omega)
          simpa [feedOut] using this
        · have hfe : ∀ eo, feedLoopF (fuel + 1) eo (b0 :: r0) buf =
              ((if ¬buf.isEmpty then buf ++ seg
                  else if t == 10 then seg ++ [10] else seg) ::
                  (feedLoopF fuel eo (skipTerm (t :: rest1)).1 []).1,
                (feedLoopF fuel eo (skipTerm (t :: rest1)).1 []).2.1,
                (feedLoopF fuel eo (skipTerm (t :: rest1)).1 []).2.2 ||
                  (skipTerm (t :: rest1)).2) := by
            intro eo
            simp only [feedLoopF, hscan]
            simp [ht0]
          rw [hfe true, hfe false]
          have hts : isLineEndChar t = true ∨ t = 0 := by
            apply scanEol_rest_special (b0 :: r0) t rest1
            rw [hscan]
          have ht1013 : t = 10 ∨ t = 13 := by
            rcases hts with h1 | h1
            · simpa [isLineEndChar] using h1
            · exact absurd h1 ht0
          have hsl := skipTerm_length_le t rest1 ht1013
          have := ih (skipTerm (t :: rest1)).1 []
            (by simp only [List.length_cons] at hlen h; omega)
          simpa [feedOut] using this

theorem modeOf_eq_c (b : Nat) : modeOf b = .c ↔ b = 13 := by
  unfold modeOf
  split_ifs with h1 h2 <;> simp_all

theorem modeOf_eq_u (b : Nat) : modeOf b = .u ↔ b = 0 := by
  unfold modeOf
  split_ifs with h1 h2 <;> simp_all

/-- One mid-stream `feed` call (`eof = false`) refines the specification
machine across a chunk boundary. -/
theorem feedChunk_mid_spec (buf c : List Nat) (cr : Bool) (m : Mode)
    (hok : modeOk m cr c) (hb : ∀ b ∈ buf, cleanByte b) (hc : c ≠ []) :
    ∃ st1 ls, feedChunk ⟨buf, cr⟩ c false = some (st1, ls) ∧
      ls.map normLine = (lineSplit m buf c).1 ∧
      st1.buf = (lineSplit m buf c).2.1 ∧
      (st1.cr = true ↔ (lineSplit m buf c).2.2 = .c) ∧
      (∀ b ∈ st1.buf, cleanByte b) := by
  cases c with
  | nil => exact absurd rfl hc
  | cons c0 cr0 =>
    cases cr with
    | false =>
      have hm : lineSplit m buf (c0 :: cr0) = lineSplit .n buf (c0 :: cr0) := by
        rcases hok with ⟨rfl, -⟩ | ⟨-, hcr⟩ | ⟨rfl, -, h10, h13⟩
        · rfl
        · exact absurd hcr (by simp)
        · exact lineSplit_u_eq_n buf c0 cr0 (fun e => h10 (by simp [e]))
            (fun e => h13 (by simp [e]))
      have hq := feedLoopF_false_spec (c0 :: cr0).length (c0 :: cr0) buf
        (Nat.le_refl _) hb
      refine ⟨⟨(feedLoop false (c0 :: cr0) buf).2.1,
        (feedLoop false (c0 :: cr0) buf).2.2⟩, (feedLoop false (c0 :: cr0) buf).1,
        rfl, ?_, ?_, ?_, ?_⟩
      · rw [hm]
        exact hq.1
      · rw [hm]
        exact hq.2.1
      · rw [hm]
        exact hq.2.2.1
      · exact hq.2.2.2
    | true =>
      have hmc : m = .c := by
        rcases hok with ⟨-, hcr⟩ | ⟨rfl, -⟩ | ⟨-, hcr, -⟩
        · exact absurd hcr (by simp)
        · rfl
        · exact absurd hcr (by simp)
      subst hmc
      by_cases h0 : c0 = 10
      · subst h0
        have hm : lineSplit .c buf (10 :: cr0) = lineSplit .n buf cr0 :=
          lineSplit_c_10 buf cr0
        have hq := feedLoopF_false_spec cr0.length cr0 buf (Nat.le_refl _) hb
        have hfc : feedChunk ⟨buf, true⟩ (10 :: cr0) false =
            some (⟨(feedLoop false cr0 buf).2.1, (feedLoop false cr0 buf).2.2⟩,
              (feedLoop false cr0 buf).1) := by
          simp [feedChunk]
        refine ⟨_, _, hfc, ?_, ?_, ?_, ?_⟩
        · rw [hm]
          exact hq.1
        · rw [hm]
          exact hq.2.1
        · rw [hm]
          exact hq.2.2.1
        · exact hq.2.2.2
      · have hm : lineSplit .c buf (c0 :: cr0) = lineSplit .n buf (c0 :: cr0) :=
          lineSplit_c_eq_n buf c0 cr0 h0
        have hq := feedLoopF_false_spec (c0 :: cr0).length (c0 :: cr0) buf
          (Nat.le_refl _) hb
        have hfc : feedChunk ⟨buf, true⟩ (c0 :: cr0) false =
            some (⟨(feedLoop false (c0 :: cr0) buf).2.1,
              (feedLoop false (c0 :: cr0) buf).2.2⟩,
              (feedLoop false (c0 :: cr0) buf).1) := by
          simp [feedChunk, h0]
        refine ⟨_, _, hfc, ?_, ?_, ?_, ?_⟩
        · rw [hm]
          exact hq.1
        · rw [hm]
          exact hq.2.1
        · rw [hm]
          exact hq.2.2.1
        · exact hq.2.2.2

/-- The final `feed` call (`eof = true`) together with `finish`'s handling
of the leftover `linebuf` produces exactly the specification machine's
lines plus final pending line. -/
theorem feedChunk_last_spec (buf c : List Nat) (cr : Bool) (m : Mode)
    (hok : modeOk m cr c) (hb : ∀ b ∈ buf, cleanByte b) (hc : c ≠ []) :
    ∃ st1 ls, feedChunk ⟨buf, cr⟩ c true = some (st1, ls) ∧
      ls.map normLine ++
          (if st1.buf.isEmpty then [] else [normLine st1.buf]) =
        (lineSplit m buf c).1 ++
          (if (lineSplit m buf c).2.1.isEmpty then []
            else [(lineSplit m buf c).2.1 ++ [10]]) := by
  have key : ∀ c' : List Nat, lineSplit m buf c = lineSplit .n buf c' →
      feedOut (feedLoop true c' buf) =
        (lineSplit m buf c).1 ++
          (if (lineSplit m buf c).2.1.isEmpty then []
            else [(lineSplit m buf c).2.1 ++ [10]]) := by
    intro c' hm
    have hq := feedLoopF_false_spec c'.length c' buf (Nat.le_refl _) hb
    have ht := feedLoopF_true_combined c'.length c' buf (Nat.le_refl _)
    rw [hm]
    calc feedOut (feedLoop true c' buf)
        = feedOut (feedLoop false c' buf) := ht
      _ = _ := by
        unfold feedOut
        simp only [feedLoop]
        rw [hq.1, hq.2.1]
        by_cases he : (lineSplit .n buf c').2.1.isEmpty
        · simp [he]
        · rw [if_neg (by simp [he]), if_neg (by simp [he])]
          rw [normLine_clean _ (fun b hbb => (hq.2.2.2 b (by rw [← hq.2.1] at hbb; exact hbb)).1)]
  cases c with
  | nil => exact absurd rfl hc
  | cons c0 cr0 =>
    cases cr with
    | false =>
      have hm : lineSplit m buf (c0 :: cr0) = lineSplit .n buf (c0 :: cr0) := by
        rcases hok with ⟨rfl, -⟩ | ⟨-, hcr⟩ | ⟨rfl, -, h10, h13⟩
        · rfl
        · exact absurd hcr (by simp)
        · exact lineSplit_u_eq_n buf c0 cr0 (fun e => h10 (by simp [e]))
            (fun e => h13 (by simp [e]))
      exact ⟨_, _, rfl, key (c0 :: cr0) hm⟩
    | true =>
      have hmc : m = .c := by
        rcases hok with ⟨-, hcr⟩ | ⟨rfl, -⟩ | ⟨-, hcr, -⟩
        · exact absurd hcr (by simp)
        · rfl
        · exact absurd hcr (by simp)
      subst hmc
      by_cases h0 : c0 = 10
      · subst h0
        have hfc : feedChunk ⟨buf, true⟩ (10 :: cr0) true =
            some (⟨(feedLoop true cr0 buf).2.1, (feedLoop true cr0 buf).2.2⟩,
              (feedLoop true cr0 buf).1) := by
          simp [feedChunk]
        exact ⟨_, _, hfc, key cr0 (lineSplit_c_10 buf cr0)⟩
      · have hfc : feedChunk ⟨buf, true⟩ (c0 :: cr0) true =
            some (⟨(feedLoop true (c0 :: cr0) buf).2.1,
              (feedLoop true (c0 :: cr0) buf).2.2⟩,
              (feedLoop true (c0 :: cr0) buf).1) := by
          simp [feedChunk, h0]
        exact ⟨_, _, hfc, key (c0 :: cr0) (lineSplit_c_eq_n buf c0 cr0 h0)⟩

/-- A well-formed chunked run of `feed` (with `eof` on the last chunk and
`finish` processing the leftover `linebuf`) produces exactly the
specification machine's lines for the concatenated input. -/
theorem runChunks_spec : ∀ (cs : List (List Nat)) (c buf : List Nat)
    (cr : Bool) (m : Mode), chunksOk (c :: cs) → modeOk m cr c →
    (∀ b ∈ buf, cleanByte b) →
    ∃ st ls, runChunks ⟨buf, cr⟩ (c :: cs) = some (st, ls) ∧
      ls.map normLine ++
          (if st.buf.isEmpty then [] else [normLine st.buf]) =
        (lineSplit m buf (c :: cs).flatten).1 ++
          (if (lineSplit m buf (c :: cs).flatten).2.1.isEmpty then []
            else [(lineSplit m buf (c :: cs).flatten).2.1 ++ [10]]) := by
  intro cs
  induction cs with
  | nil =>
    intro c buf cr m hok hmk hb
    obtain ⟨st1, ls, hfc, heq⟩ := feedChunk_last_spec buf c cr m hmk hb hok
    refine ⟨st1, ls, hfc, ?_⟩
    simpa using heq
  | cons c2 cs ih =>
    intro c buf cr m hok hmk hb
    obtain ⟨hc, hnul, hok2⟩ := hok
    obtain ⟨st1, ls1, hfc, hl1, hbuf1, hcr1, hcl1⟩ :=
      feedChunk_mid_spec buf c cr m hmk hb hc
    have hok1 : modeOk (lineSplit m buf c).2.2 st1.cr c2 := by
      rcases List.eq_nil_or_concat c with rfl | ⟨Lc, lb, hcc⟩
      · exact absurd rfl hc
      · rw [List.concat_eq_append] at hcc
        have hmode : (lineSplit m buf c).2.2 = modeOf lb := by
          rw [hcc]
          exact lineSplit_last_mode m buf Lc lb
        rcases hm1 : (lineSplit m buf c).2.2 with _ | _ | _
        · exact Or.inl ⟨rfl, by
            rcases hx : st1.cr with _ | _
            · rfl
            · exact absurd (hcr1.mp hx) (by rw [hm1]; simp)⟩
        · exact Or.inr (Or.inl ⟨rfl, hcr1.mpr hm1⟩)
        · refine Or.inr (Or.inr ⟨rfl, ?_, ?_, ?_⟩)
          · rcases hx : st1.cr with _ | _
            · rfl
            · exact absurd (hcr1.mp hx) (by rw [hm1]; simp)
          · have hlb : lb = 0 := by
              rw [hm1] at hmode
              exact (modeOf_eq_u lb).mp hmode.symm
            refine (hnul ?_).1
            rw [hcc, hlb]
            simp [List.getLast?_append]
          · have hlb : lb = 0 := by
              rw [hm1] at hmode
              exact (modeOf_eq_u lb).mp hmode.symm
            refine (hnul ?_).2
            rw [hcc, hlb]
            simp [List.getLast?_append]
    obtain ⟨st2, ls2, hrun2, heq2⟩ :=
      ih c2 st1.buf st1.cr (lineSplit m buf c).2.2 hok2 hok1 hcl1
    have hrun2a : runChunks st1 (c2 :: cs) = some (st2, ls2) := hrun2
    refine ⟨st2, ls1 ++ ls2, ?_, ?_⟩
    · rw [runChunks, hfc]
      dsimp only
      rw [hrun2a]
    · rw [List.map_append, List.append_assoc, heq2, hbuf1]
      have hflat : (c :: c2 :: cs).flatten = c ++ (c2 :: cs).flatten := rfl
      rw [hflat, lineSplit_append m buf c (c2 :: cs).flatten]
      rw [hl1, List.append_assoc]

/-- A well-formed chunked run computes the canonical line sequence of the
concatenated input. -/
theorem pipelineLines_ok (chunks : List (List Nat)) (h : chunks ≠ [])
    (hok : chunksOk chunks) :
    pipelineLines chunks = some (lineSplitAll chunks.flatten) := by
  cases chunks with
  | nil => exact absurd rfl h
  | cons c cs =>
    obtain ⟨st, ls, hrun, heq⟩ := runChunks_spec cs c [] false .n hok
      (Or.inl ⟨rfl, rfl⟩) (by simp)
    have hrun0 : runChunks feedSt0 (c :: cs) = some (st, ls) := hrun
    unfold pipelineLines
    rw [hrun0]
    simp only [lineSplitAll]
    exact congrArg some heq

/-- Under the C10 precondition, no `feed` call indexes out of bounds: the
whole chunked run returns a result. -/
theorem runChunks_isSome : ∀ (chunks : List (List Nat)) (buf : List Nat)
    (cr : Bool), crOk chunks → (cr = true → chunks.head? ≠ some []) →
    (∀ b ∈ buf, cleanByte b) →
    (runChunks ⟨buf, cr⟩ chunks).isSome := by
  intro chunks
  induction chunks with
  | nil =>
    intro buf cr _ _ _
    simp [runChunks]
  | cons c cs ih =>
    intro buf cr hok hcr hb
    cases cs with
    | nil =>
      cases c with
      | nil =>
        have : cr = false := by
          rcases hx : cr with _ | _
          · rfl
          · exact absurd rfl (hcr hx)
        subst this
        simp [runChunks, feedChunk]
      | cons c0 r0 =>
        cases cr <;> simp [runChunks, feedChunk]
    | cons c2 cs2 =>
      obtain ⟨hnx, hok2⟩ := hok
      cases c with
      | nil =>
        have hcrf : cr = false := by
          rcases hx : cr with _ | _
          · rfl
          · exact absurd rfl (hcr hx)
        subst hcrf
        have hfc : feedChunk ⟨buf, false⟩ [] false = some (⟨buf, false⟩, []) :=
          rfl
        have hnext := ih buf false hok2 (by simp) hb
        obtain ⟨v, hv⟩ := Option.isSome_iff_exists.mp hnext
        rcases v with ⟨st2, ls2⟩
        rw [runChunks, hfc]
        dsimp only
        rw [hv]
        rfl
      | cons c0 r0 =>
        have hmk : modeOk (if cr then Mode.c else Mode.n) cr (c0 :: r0) := by
          rcases hx : cr with _ | _
          · exact Or.inl ⟨by simp, rfl⟩
          · exact Or.inr (Or.inl ⟨by simp, rfl⟩)
        obtain ⟨st1, ls1, hfc, hl1, hbuf1, hcr1, hcl1⟩ :=
          feedChunk_mid_spec buf (c0 :: r0) cr (if cr then Mode.c else Mode.n)
            hmk hb (by simp)
        have hnexthead : st1.cr = true → (c2 :: cs2).head? ≠ some [] := by
          intro hx
          have hm1 := hcr1.mp hx
          rcases List.eq_nil_or_concat (c0 :: r0) with he | ⟨Lc, lb, hcc⟩
          · exact absurd he (by simp)
          · rw [List.concat_eq_append] at hcc
            rw [hcc, lineSplit_last_mode _ buf Lc lb] at hm1
            have hlb : lb = 13 := (modeOf_eq_c lb).mp hm1
            have h2 : c2 ≠ [] := by
              apply hnx
              rw [hcc, hlb]
              simp [List.getLast?_append]
            simpa using h2
        have hnext := ih st1.buf st1.cr hok2 hnexthead hcl1
        obtain ⟨v, hv⟩ := Option.isSome_iff_exists.mp hnext
        rcases v with ⟨st2, ls2⟩
        have hva : runChunks st1 (c2 :: cs2) = some (st2, ls2) := hv
        rw [runChunks, hfc]
        dsimp only
        rw [hva]
        rfl

theorem getNode_oob (st : PState) (id : Nat) (h : st.nodes.length ≤ id) :
    getNode st id = default := by
  unfold getNode
  exact List.getD_eq_default _ _ h

theorem getNode_setNode_self (st : PState) (id : Nat) (n : NodeRec) :
    getNode (setNode st id n) id =
      if id < st.nodes.length then n else default := by
  unfold getNode setNode
  split
  · next h =>
    simp [List.getD, List.getElem?_set_self, h]
  · next h =>
    have hle : st.nodes.length ≤ id := by omega
    rw [List.set_eq_of_length_le hle]
    exact List.getD_eq_default _ _ hle

theorem getNode_updNode_ne (st : PState) (j : Nat) (f : NodeRec → NodeRec)
    (i : Nat) (h : i ≠ j) : getNode (updNode st j f) i = getNode st i := by
  unfold updNode setNode getNode
  simp [List.getD]
  rw [List.getElem?_set_ne (by omega)]

theorem updNode_openFlag (st : PState) (j : Nat) (f : NodeRec → NodeRec)
    (i : Nat) (hf : ∀ n, (f n).openFlag = n.openFlag) :
    (getNode (updNode st j f) i).openFlag = (getNode st i).openFlag := by
  by_cases h : i = j
  · subst h
    unfold updNode
    rw [getNode_setNode_self]
    split
    · exact hf _
    · next hlt =>
      rw [getNode_oob st i (by omega)]
  · rw [getNode_updNode_ne st j f i h]

theorem detachNode_openFlag (st : PState) (id : Nat) :
    (getNode (detachNode st id) id).openFlag = (getNode st id).openFlag := by
  unfold detachNode
  cases hp : (getNode st id).parent with
  | none => rfl
  | some p =>
    simp only [hp]
    rw [updNode_openFlag _ _ _ _ ?hf1, updNode_openFlag _ _ _ _ ?hf2]
    case hf1 => intro n; rfl
    case hf2 => intro n; rfl

theorem setNode_openFlag_false (st : PState) (id : Nat) (n : NodeRec)
    (h : n.openFlag = false) :
    (getNode (setNode st id n) id).openFlag = false := by
  rw [getNode_setNode_self]
  split
  · exact h
  · rfl

theorem getNode_setNode_ne (st : PState) (j : Nat) (n : NodeRec) (i : Nat)
    (h : i ≠ j) : getNode (setNode st j n) i = getNode st i := by
  unfold setNode getNode
  simp [List.getD]
  rw [List.getElem?_set_ne (by omega)]

theorem detachNode_openFlag_all (st : PState) (j i : Nat) :
    (getNode (detachNode st j) i).openFlag = (getNode st i).openFlag := by
  unfold detachNode
  cases hp : (getNode st j).parent with
  | none => rfl
  | some p =>
    simp only [hp]
    rw [updNode_openFlag _ _ _ _ ?hg1, updNode_openFlag _ _ _ _ ?hg2]
    case hg1 => intro n; rfl
    case hg2 => intro n; rfl

theorem paragraphRefLoop_state :
    ∀ (fuel : Nat) (st : PState) (content : List Nat),
      (paragraphRefLoop fuel st content).1 = st := by
  intro fuel
  induction fuel with
  | zero => intro st content; rfl
  | succ f ih =>
    intro st content
    simp only [paragraphRefLoop]
    split
    · simp [parseRefInline]
    · rfl

theorem finalizeNode_openFlag (st : PState) (id : Nat) :
    (getNode (finalizeNode st id).1 id).openFlag = false := by
  simp only [finalizeNode]
  repeat' split
  all_goals
    first
      | exact setNode_openFlag_false _ _ _ rfl
      | (rw [detachNode_openFlag]; exact setNode_openFlag_false _ _ _ rfl)

/-- Claim C5, counterexample: parsing `|a|\n|-|\n|b|\n` with the table
extension leaves the header `TableRow`, both header and body `TableCell`s
reachable from the root with `open = true` after `finish`
(`try_opening_header` and `try_opening_row` create them as open children
off the finalization spine, and nothing ever closes them). -/
theorem c5_open_after_parse_cex :
    (parseDoc true [124, 97, 124, 10, 124, 45, 124, 10, 124, 98, 124, 10]).map
      (fun st =>
        ((getNode st 0).openFlag, (getNode st 0).children,
         (getNode st 2).value, (getNode st 2).children, (getNode st 2).openFlag,
         (getNode st 3).value, (getNode st 3).openFlag,
         (getNode st 4).value, (getNode st 4).openFlag, (getNode st 4).content,
         (getNode st 6).value, (getNode st 6).openFlag)) =
      some (false, [2], .table [.noAlign], [3, 5], false, .tableRow true, true,
        .tableCell, true, [97], .tableCell, true) := by rfl

/-- Claim C5, amended: after `finalize_document` the root node is always
closed, and finalization is the only way a flag is cleared —
`finalize_borrowed` changes exactly its target node's open flag, leaving
every other node's flag as it was — so the table nodes created off the
finalization spine (the counterexample's header `TableRow` and the
`TableCell`s) keep `open = true`. -/
theorem c5_root_closed :
    (∀ st : PState, (getNode (finalizeDocument st) 0).openFlag = false) ∧
    (∀ (st : PState) (id i : Nat), i ≠ id →
      (getNode (finalizeNode st id).1 i).openFlag =
        (getNode st i).openFlag) := by
  constructor
  · intro st
    unfold finalizeDocument
    exact finalizeNode_openFlag _ 0
  · intro st id i hne
    simp only [finalizeNode]
    repeat' split
    all_goals
      first
        | (rw [detachNode_openFlag_all, getNode_setNode_ne _ _ _ _ hne,
            paragraphRefLoop_state])
        | (rw [getNode_setNode_ne _ _ _ _ hne, paragraphRefLoop_state])
        | rw [getNode_setNode_ne _ _ _ _ hne]

theorem byteAt_drop_head (l : List Nat) (i v : Nat) (hv : v ≠ 0)
    (h : byteAt l i = v) : (l.drop i).head? = some v := by
  unfold byteAt at h
  rcases hg : l[i]? with _ | b
  · rw [List.getD_eq_getElem?_getD, hg] at h
    simp at h
    omega
  · rw [List.getD_eq_getElem?_getD, hg] at h
    simp at h
    subst h
    rw [List.head?_drop]
    exact hg

/-- Claim C1, counterexample: `#foo` — a `#` run followed by a letter —
still opens a heading: the loose `reddit_atx_heading_start` branch fires,
and the parse of `#foo` produces a level-1 `Heading` child of the root
with content `foo`. -/
theorem c1_heading_opener_cex :
    (parseDoc false [35, 102, 111, 111]).map
      (fun st => ((getNode st 0).children, (getNode st 1).value,
        (getNode st 1).content, (getNode st 1).openFlag)) =
      some ([1], .heading 1 false, [102, 111, 111], false) := by rfl

/-- Claim C1, amended: phase B's dispatch opens a heading (strict ATX or
the loose reddit variant) for every non-indented position whose first
non-space byte is `#`, whatever byte follows the run. -/
theorem c1_hash_opens_heading (st : PState) (line : List Nat)
    (cv : NodeValue) (am ml : Bool)
    (h1 : st.indent < CODE_INDENT)
    (h2 : byteAt line st.firstNonspace = 35) :
    (∃ m, openerDispatch st line cv am ml = .atx m) ∨
      (∃ m, openerDispatch st line cv am ml = .reddit m) := by
  have hind : ¬ st.indent ≥ CODE_INDENT := by omega
  have hhead : (line.drop st.firstNonspace).head? = some 35 :=
    byteAt_drop_head _ _ _ (by omega) h2
  have hred : ∃ k,
      redditAtxHeadingStart (line.drop st.firstNonspace) = some k := by
    simp only [redditAtxHeadingStart]
    cases hl : line.drop st.firstNonspace with
    | nil => rw [hl] at hhead; simp at hhead
    | cons a r =>
      rw [hl] at hhead
      have ha : a = 35 := by simpa using hhead
      subst ha
      have hlen : ((35 :: r).takeWhile (fun x => x == 35)).length =
          (r.takeWhile (fun x => x == 35)).length + 1 := by
        simp [List.takeWhile_cons]
      refine ⟨min ((35 :: r).takeWhile (fun x => x == 35)).length 6, ?_⟩
      rw [if_neg (by omega)]
  cases hA : atxHeadingStart (line.drop st.firstNonspace) with
  | some m =>
    left
    refine ⟨m, ?_⟩
    simp [openerDispatch, h2, hind, hA, chainAux]
  | none =>
    right
    obtain ⟨k, hk⟩ := hred
    refine ⟨k, ?_⟩
    simp [openerDispatch, h2, hind, hA, hk, chainAux]

theorem c1_hash_opens_heading_witness :
    (∃ m, openerDispatch (initialState false) [35, 102, 111, 111, 10]
        .document true false = .atx m) ∨
      (∃ m, openerDispatch (initialState false) [35, 102, 111, 111, 10]
        .document true false = .reddit m) :=
  c1_hash_opens_heading (initialState false) [35, 102, 111, 111, 10]
    .document true false (by decide) (by decide)

/-- Claim C2, counterexample: `open_new_blocks` called with
`all_matched = false` on a paragraph container and the underline `---`
still converts the paragraph into a setext heading of level 2 — the
setext guard never consults `all_matched`. -/
theorem c2_setext_cex :
    (let st1 := processLine (initialState false) [112, 97, 114, 97]
     let st2 :=
       { st1 with
           offset := 0
           column := 0
           blank := false
           partiallyConsumedTab := false }
     ((getNode st2 1).value,
      (getNode (openNewBlocks st2 1 [45, 45, 45, 10] false).1 1).value)) =
      (.paragraph, .heading 2 true) := by rfl

theorem openerTail_ne_setext (st : PState) (line : List Nat)
    (cv : NodeValue) (am ml : Bool) (sc : SetextChar) :
    openerTail st line cv am ml ≠ .setext sc := by
  unfold openerTail
  repeat' split
  all_goals simp

theorem dispatchChain_setext (o1 o2 o3 o4 : Option Nat)
    (o5 : Option SetextChar) (x y : OpenerChoice) (sc : SetextChar)
    (hx : x ≠ .setext sc)
    (h : chainAux o1 o2 o3 o4 o5 x = OpenerChoice.setext sc) :
    chainAux o1 o2 o3 o4 o5 y = OpenerChoice.setext sc := by
  cases o1 <;> cases o2 <;> cases o3 <;> cases o4 <;> cases o5 <;>
    simp_all [chainAux]

/-- Claim C2, amended: the setext branch of the opener dispatch is
independent of `all_matched` — whenever it fires for one value of the
flag it fires identically for the other (only the later thematic-break
branch consults `all_matched`). -/
theorem c2_setext_ignores_all_matched (st : PState) (line : List Nat)
    (cv : NodeValue) (am am' ml : Bool) (sc : SetextChar)
    (h : openerDispatch st line cv am ml = .setext sc) :
    openerDispatch st line cv am' ml = .setext sc := by
  unfold openerDispatch at h ⊢
  by_cases hbq : ¬(st.indent ≥ CODE_INDENT) ∧ byteAt line st.firstNonspace = 62
  · rw [if_pos hbq] at h
    exact absurd h (by simp)
  · rw [if_neg hbq] at h ⊢
    exact dispatchChain_setext _ _ _ _ _ _ _ sc
      (openerTail_ne_setext st line cv am ml sc) h

theorem c2_setext_ignores_all_matched_witness :
    openerDispatch (initialState false) [45, 45, 45, 10] .paragraph false
      true = .setext .hyphen :=
  c2_setext_ignores_all_matched (initialState false) [45, 45, 45, 10]
    .paragraph true false true .hyphen (by rfl)

theorem chunksOk_flatten (chunks : List (List Nat)) (h1 : chunks ≠ [])
    (h2 : chunksOk chunks) : chunks.flatten ≠ [] := by
  cases chunks with
  | nil => exact absurd rfl h1
  | cons c cs =>
    have hc : c ≠ [] := by
      cases cs with
      | nil => exact h2
      | cons c2 cs2 => exact h2.1
    simp only [List.flatten_cons]
    intro hx
    exact hc (List.append_eq_nil.mp hx).1

/-- Claim C3, counterexample: feeding `a\r` then the empty chunk panics
(none), while the whole buffer parses; and splitting `a\x00\nb` as
`a\x00` / `\nb` produces a different tree from the whole buffer (the
pending terminator skip after the NUL replacement is lost at the chunk
boundary). -/
theorem c3_streaming_cex :
    (parseChunks false [[97, 13], []] = none ∧
      (parseChunks false [[97, 13]]).isSome = true) ∧
    (parseChunks false [[97, 0], [10, 98]]).map
        (fun st => (getNode st 1).content) =
      some [97, 239, 191, 189, 10, 98, 10] ∧
    (parseChunks false [[97, 0, 10, 98]]).map
        (fun st => (getNode st 1).content) =
      some [97, 239, 191, 189, 98, 10] :=
  ⟨⟨rfl, rfl⟩, rfl, rfl⟩

/-- Claim C3, amended: chunked feeding agrees with whole-buffer parsing
for every well-formed chunk sequence — all chunks non-empty and no chunk
ending in NUL followed by one starting with CR or LF. -/
theorem c3_streaming_equiv (ext : Bool) (chunks : List (List Nat))
    (h1 : chunks ≠ []) (h2 : chunksOk chunks) :
    parseChunks ext chunks = parseChunks ext [chunks.flatten] := by
  unfold parseChunks
  rw [pipelineLines_ok chunks h1 h2,
    pipelineLines_ok [chunks.flatten] (by simp)
      (show chunksOk [chunks.flatten] from chunksOk_flatten chunks h1 h2)]
  simp

theorem c3_streaming_equiv_witness :
    parseChunks false [[97], [98, 10], [99]] =
      parseChunks false [[97, 98, 10, 99]] := by
  have h := c3_streaming_equiv false [[97], [98, 10], [99]] (by simp)
    (by simp [chunksOk])
  simpa using h

/-- Claim C10: under the precondition that no empty chunk follows a chunk
ending in CR, the feed stage never indexes out of bounds (the whole
chunked line pipeline returns a result); and the violating sequence
`feed("a\r", false); feed("", true)` does index the empty buffer out of
bounds (modelled as none). -/
theorem c10_feed_safety :
    (∀ chunks : List (List Nat), crOk chunks →
      (pipelineLines chunks).isSome = true) ∧
      pipelineLines [[97, 13], []] = none := by
  constructor
  · intro chunks hok
    have h := runChunks_isSome chunks [] false hok (by simp) (by simp)
    obtain ⟨v, hv⟩ := Option.isSome_iff_exists.mp h
    have hv0 : runChunks feedSt0 chunks = some v := hv
    unfold pipelineLines
    rw [hv0]
    rcases v with ⟨stv, lsv⟩
    simp
  · rfl

theorem c10_feed_safety_witness :
    (pipelineLines [[97, 13], [10, 98]]).isSome = true :=
  c10_feed_safety.1 [[97, 13], [10, 98]] (by simp [crOk])

theorem isspace_eq_uniws (c : Nat) : isspace c = isUniWhitespace c := by
  unfold isspace isUniWhitespace
  cases h9 : c == 9 <;> cases h10 : c == 10 <;> cases h11 : c == 11 <;>
    cases h12 : c == 12 <;> cases h13 : c == 13 <;> cases h32 : c == 32 <;>
    simp [h9, h10, h11, h12, h13, h32]

theorem uniws_letterish (c : Nat) (h1 : 65 ≤ c) (h2 : c ≤ 122) :
    isUniWhitespace c = false := by
  unfold isUniWhitespace
  simp only [Bool.or_eq_false_iff, beq_eq_false_iff_ne, ne_eq]
  omega

theorem charLower_ws_eq (a b : Nat) (h : charLowerAscii a = charLowerAscii b) :
    isUniWhitespace a = isUniWhitespace b := by
  by_cases ha : 65 ≤ a ∧ a ≤ 90 <;> by_cases hb : 65 ≤ b ∧ b ≤ 90
  · rw [uniws_letterish a (by omega) (by omega),
      uniws_letterish b (by omega) (by omega)]
  · unfold charLowerAscii at h
    rw [if_pos ha, if_neg hb] at h
    rw [uniws_letterish a (by omega) (by omega),
      uniws_letterish b (by omega) (by omega)]
  · unfold charLowerAscii at h
    rw [if_neg ha, if_pos hb] at h
    rw [uniws_letterish a (by omega) (by omega),
      uniws_letterish b (by omega) (by omega)]
  · unfold charLowerAscii at h
    rw [if_neg ha, if_neg hb] at h
    rw [h]

theorem charLower_of_ws (c : Nat) (h : isUniWhitespace c = true) :
    charLowerAscii c = c := by
  have h2 : ((((c = 32 ∨ c = 9) ∨ c = 10) ∨ c = 11) ∨ c = 12) ∨ c = 13 := by
    simpa [isUniWhitespace] using h
  rcases h2 with ((((rfl | rfl) | rfl) | rfl) | rfl) | rfl <;> decide

theorem lowEq_dropWhile (l1 l2 : List Nat)
    (h : List.Forall₂ (fun a b => charLowerAscii a = charLowerAscii b) l1 l2) :
    List.Forall₂ (fun a b => charLowerAscii a = charLowerAscii b)
      (l1.dropWhile isspace) (l2.dropWhile isspace) := by
  induction h with
  | nil => exact List.Forall₂.nil
  | @cons a b t1 t2 hab htl ih =>
    rw [List.dropWhile_cons, List.dropWhile_cons]
    have hsp : isspace a = isspace b := by
      rw [isspace_eq_uniws, isspace_eq_uniws]
      exact charLower_ws_eq a b hab
    rw [← hsp]
    by_cases hs : isspace a = true
    · rw [if_pos hs, if_pos hs]
      exact ih
    · rw [if_neg hs, if_neg hs]
      exact List.Forall₂.cons hab htl

theorem lowEq_trimSlice (l1 l2 : List Nat)
    (h : List.Forall₂ (fun a b => charLowerAscii a = charLowerAscii b) l1 l2) :
    List.Forall₂ (fun a b => charLowerAscii a = charLowerAscii b)
      (trimSlice l1) (trimSlice l2) := by
  unfold trimSlice
  exact List.forall₂_reverse_iff.mpr
    (lowEq_dropWhile _ _ (List.forall₂_reverse_iff.mpr (lowEq_dropWhile _ _ h)))

theorem lowEq_normRefGo (l1 l2 : List Nat)
    (h : List.Forall₂ (fun a b => charLowerAscii a = charLowerAscii b) l1 l2) :
    ∀ flag, normRefGo l1 flag = normRefGo l2 flag := by
  induction h with
  | nil => intro flag; rfl
  | @cons a b t1 t2 hab htl ih =>
    intro flag
    simp only [normRefGo]
    rw [hab]
    by_cases hw : isUniWhitespace (charLowerAscii b) = true
    · rw [if_pos hw, if_pos hw, ih true]
    · rw [if_neg hw, if_neg hw, ih false]

theorem norm_case_invariant (l1 l2 : List Nat)
    (h : List.Forall₂ (fun a b => charLowerAscii a = charLowerAscii b) l1 l2) :
    normalizeReferenceLabel l1 = normalizeReferenceLabel l2 := by
  unfold normalizeReferenceLabel
  exact lowEq_normRefGo _ _ (lowEq_trimSlice _ _ h) false

theorem wsDropWhile_append {p : Nat → Bool} (u r : List Nat)
    (h : ∀ x ∈ u, p x = true) :
    (u ++ r).dropWhile p = r.dropWhile p := by
  induction u with
  | nil => rfl
  | cons a t ih =>
    rw [List.cons_append, List.dropWhile_cons, if_pos (h a (by simp))]
    exact ih (fun x hx => h x (by simp [hx]))

theorem trimSlice_ws_left (p l : List Nat) (h : ∀ x ∈ p, isspace x = true) :
    trimSlice (p ++ l) = trimSlice l := by
  unfold trimSlice
  rw [wsDropWhile_append p l h]

theorem trimSlice_ws_right (l s : List Nat) (h : ∀ x ∈ s, isspace x = true) :
    trimSlice (l ++ s) = trimSlice l := by
  unfold trimSlice
  cases hD : l.dropWhile isspace with
  | nil =>
    rw [List.dropWhile_append, hD]
    have hs : s.dropWhile isspace = [] := by
      simpa using wsDropWhile_append s [] h
    simp [hs]
  | cons a t =>
    rw [List.dropWhile_append, hD]
    simp only [List.isEmpty_cons, if_false, Bool.false_eq_true]
    rw [List.reverse_append,
      wsDropWhile_append s.reverse _ (fun x hx => h x (by simpa using hx))]

theorem norm_outer_ws_invariant (p l s : List Nat)
    (hp : ∀ x ∈ p, isspace x = true) (hs : ∀ x ∈ s, isspace x = true) :
    normalizeReferenceLabel (p ++ l ++ s) = normalizeReferenceLabel l := by
  unfold normalizeReferenceLabel
  rw [List.append_assoc, trimSlice_ws_left p (l ++ s) hp,
    trimSlice_ws_right l s hs]

theorem normRefGo_ws_true (u : List Nat)
    (hw : ∀ x ∈ u, isUniWhitespace x = true) :
    ∀ b, normRefGo (u ++ b) true = normRefGo b true := by
  induction u with
  | nil => intro b; rfl
  | cons a t ih =>
    intro b
    have ha := hw a (by simp)
    rw [List.cons_append]
    simp only [normRefGo]
    rw [charLower_of_ws a ha, if_pos ha, if_pos trivial]
    exact ih (fun x hx => hw x (by simp [hx])) b

theorem normRefGo_ws_false (u b : List Nat) (hu : u ≠ [])
    (hw : ∀ x ∈ u, isUniWhitespace x = true) :
    normRefGo (u ++ b) false = 32 :: normRefGo b true := by
  cases u with
  | nil => exact absurd rfl hu
  | cons a t =>
    have ha := hw a (by simp)
    rw [List.cons_append]
    simp only [normRefGo]
    rw [charLower_of_ws a ha, if_pos ha]
    simp only [Bool.false_eq_true, if_false]
    rw [normRefGo_ws_true t (fun x hx => hw x (by simp [hx])) b]

theorem normRefGo_run_repl (u b : List Nat) (hu : u ≠ [])
    (hw : ∀ x ∈ u, isUniWhitespace x = true) :
    ∀ (a : List Nat) (flag : Bool),
      normRefGo (a ++ (u ++ b)) flag = normRefGo (a ++ (32 :: b)) flag := by
  intro a
  induction a with
  | nil =>
    intro flag
    cases flag
    · rw [List.nil_append, List.nil_append, normRefGo_ws_false u b hu hw]
      rfl
    · rw [List.nil_append, List.nil_append, normRefGo_ws_true u hw]
      rfl
  | cons c t ih =>
    intro flag
    rw [List.cons_append, List.cons_append]
    simp only [normRefGo]
    by_cases hw2 : isUniWhitespace (charLowerAscii c) = true
    · rw [if_pos hw2, if_pos hw2, ih true]
    · rw [if_neg hw2, if_neg hw2, ih false]

theorem trimSlice_mid (a w b : List Nat)
    (ha : a.dropWhile isspace ≠ [])
    (hb : b.reverse.dropWhile isspace ≠ []) :
    trimSlice (a ++ w ++ b) =
      a.dropWhile isspace ++ w ++ (b.reverse.dropWhile isspace).reverse := by
  unfold trimSlice
  rw [List.append_assoc, List.dropWhile_append,
    if_neg (by simpa using ha)]
  rw [List.reverse_append, List.reverse_append, List.append_assoc,
    List.dropWhile_append, if_neg (by simpa using hb)]
  simp [List.reverse_append]

theorem norm_run_invariant (a b u v : List Nat) (hu : u ≠ []) (hv : v ≠ [])
    (hwu : ∀ x ∈ u, isspace x = true) (hwv : ∀ x ∈ v, isspace x = true) :
    normalizeReferenceLabel (a ++ u ++ b) =
      normalizeReferenceLabel (a ++ v ++ b) := by
  suffices h : ∀ w, w ≠ [] → (∀ x ∈ w, isspace x = true) →
      normalizeReferenceLabel (a ++ w ++ b) =
        normalizeReferenceLabel (a ++ [32] ++ b) by
    rw [h u hu hwu, h v hv hwv]
  intro w hw hws
  by_cases hA : a.dropWhile isspace = []
  · have haws : ∀ x ∈ a, isspace x = true := by
      intro x hx
      exact List.dropWhile_eq_nil_iff.mp hA x hx
    have h1 : ∀ (z : List Nat), z ≠ [] → (∀ x ∈ z, isspace x = true) →
        normalizeReferenceLabel (a ++ z ++ b) = normalizeReferenceLabel b := by
      intro z hz hzs
      have := norm_outer_ws_invariant (a ++ z) b []
        (by intro x hx
            rcases List.mem_append.mp hx with h | h
            · exact haws x h
            · exact hzs x h)
        (by intro x hx; simp at hx)
      simpa using this
    rw [h1 w hw hws, h1 [32] (by simp) (by simp [isspace])]
  · by_cases hB : b.reverse.dropWhile isspace = []
    · have hbws : ∀ x ∈ b, isspace x = true := by
        intro x hx
        exact List.dropWhile_eq_nil_iff.mp hB x (by simpa using hx)
      have h1 : ∀ (z : List Nat), z ≠ [] → (∀ x ∈ z, isspace x = true) →
          normalizeReferenceLabel (a ++ z ++ b) =
            normalizeReferenceLabel a := by
        intro z hz hzs
        have := norm_outer_ws_invariant [] a (z ++ b)
          (by intro x hx; simp at hx)
          (by intro x hx
              rcases List.mem_append.mp hx with h | h
              · exact hzs x h
              · exact hbws x h)
        simpa [List.append_assoc] using this
      rw [h1 w hw hws, h1 [32] (by simp) (by simp [isspace])]
    · have hws' : ∀ x ∈ w, isUniWhitespace x = true := by
        intro x hx
        rw [← isspace_eq_uniws]
        exact hws x hx
      unfold normalizeReferenceLabel
      rw [trimSlice_mid a w b hA hB, trimSlice_mid a [32] b hA hB]
      rw [List.append_assoc, List.append_assoc]
      exact normRefGo_run_repl w _ hw hws' (a.dropWhile isspace) false

theorem labelDiff_norm (l1 l2 : List Nat) (h : LabelDiff l1 l2) :
    normalizeReferenceLabel l1 = normalizeReferenceLabel l2 := by
  induction h with
  | letterCase l1 l2 h => exact norm_case_invariant l1 l2 h
  | outerWs p l s hp hs => exact norm_outer_ws_invariant p l s hp hs
  | wsRun a b u v hu hv hwu hwv =>
    exact norm_run_invariant a b u v hu hv hwu hwv
  | symm l1 l2 h ih => exact ih.symm
  | trans l1 l2 l3 h1 h2 ih1 ih2 => exact ih1.trans ih2

theorem refLookup_orInsert_isSome (m : List (List Nat × Reference))
    (k : List Nat) (v : Reference) :
    (refmapLookup (refmapEntryOrInsert m k v) k).isSome = true := by
  unfold refmapEntryOrInsert
  split
  · next h => exact h
  · next h =>
    have hfind : m.find? (fun p => p.1 == k) = none := by
      unfold refmapLookup at h
      cases hf : m.find? (fun p => p.1 == k) with
      | none => rfl
      | some p => rw [hf] at h; simp at h
    unfold refmapLookup
    rw [List.find?_append, hfind]
    simp

theorem entryOrInsert_first_wins (m : List (List Nat × Reference))
    (k : List Nat) (v1 v2 : Reference) :
    refmapEntryOrInsert (refmapEntryOrInsert m k v1) k v2 =
      refmapEntryOrInsert m k v1 := by
  have hs := refLookup_orInsert_isSome m k v1
  conv_lhs => rw [refmapEntryOrInsert]
  rw [if_pos hs]

/-- Claim C6: any two reference labels that differ only in letter case,
in leading or trailing whitespace, or in the length of internal
whitespace runs — `LabelDiff`, the equivalence generated by exactly those
three differences — normalize to the same key; the three example labels
normalize to the same key; and registration is first-definition-wins — a
second definition whose label normalizes to the same non-empty key leaves
the reference map unchanged. -/
theorem c6_reference_labels :
    (∀ (l1 l2 : List Nat), LabelDiff l1 l2 →
      normalizeReferenceLabel l1 = normalizeReferenceLabel l2) ∧
    (normalizeReferenceLabel [70, 111, 111, 32, 66, 97, 114] =
        normalizeReferenceLabel [102, 111, 111, 32, 32, 32, 98, 97, 114] ∧
      normalizeReferenceLabel [70, 111, 111, 32, 66, 97, 114] =
        normalizeReferenceLabel [32, 102, 111, 111, 32, 98, 97, 114, 32]) ∧
    (∀ (m : List (List Nat × Reference)) (lab1 lab2 : List Nat)
        (v1 v2 : Reference),
      normalizeReferenceLabel lab1 = normalizeReferenceLabel lab2 →
      (normalizeReferenceLabel lab1).isEmpty = false →
      registerReference (registerReference m lab1 v1) lab2 v2 =
        registerReference m lab1 v1) := by
  refine ⟨labelDiff_norm, ⟨by decide, by decide⟩, ?_⟩
  intro m lab1 lab2 v1 v2 heq hne
  simp only [registerReference, ← heq, hne, Bool.false_eq_true, if_false]
  exact entryOrInsert_first_wins m (normalizeReferenceLabel lab1) v1 v2

theorem c6_reference_labels_witness :
    normalizeReferenceLabel [32, 32, 70, 111, 111, 32, 32, 66, 97, 114, 32] =
        normalizeReferenceLabel [102, 111, 111, 32, 98, 97, 114] ∧
      registerReference
          (registerReference [] [70, 111, 111, 32, 66, 97, 114]
            ⟨[117, 49], []⟩)
          [32, 102, 111, 111, 32, 98, 97, 114, 32] ⟨[117, 50], []⟩ =
        registerReference [] [70, 111, 111, 32, 66, 97, 114]
          ⟨[117, 49], []⟩ := by
  constructor
  · have d1 : LabelDiff [32, 32, 70, 111, 111, 32, 32, 66, 97, 114, 32]
        [70, 111, 111, 32, 32, 66, 97, 114] :=
      LabelDiff.outerWs [32, 32] [70, 111, 111, 32, 32, 66, 97, 114] [32]
        (by decide) (by decide)
    have d2 : LabelDiff [70, 111, 111, 32, 32, 66, 97, 114]
        [70, 111, 111, 32, 66, 97, 114] :=
      LabelDiff.wsRun [70, 111, 111] [66, 97, 114] [32, 32] [32]
        (by decide) (by decide) (by decide) (by decide)
    have d3 : LabelDiff [70, 111, 111, 32, 66, 97, 114]
        [102, 111, 111, 32, 98, 97, 114] :=
      LabelDiff.letterCase _ _ (by
        repeat first
          | exact List.Forall₂.nil
          | refine List.Forall₂.cons (by decide) ?_)
    exact c6_reference_labels.1 _ _
      (LabelDiff.trans _ _ _ d1 (LabelDiff.trans _ _ _ d2 d3))
  · exact c6_reference_labels.2.2 [] [70, 111, 111, 32, 66, 97, 114]
      [32, 102, 111, 111, 32, 98, 97, 114, 32] ⟨[117, 49], []⟩
      ⟨[117, 50], []⟩ (by decide) (by decide)

theorem digitsLoop_pos_le (line : List Nat) :
    ∀ fuel start pos, pos ≤ (digitsLoop fuel start pos line).2 := by
  intro fuel
  induction fuel with
  | zero => intro start pos; simp [digitsLoop]
  | succ f ih =>
    intro start pos
    simp only [digitsLoop]
    split
    · exact le_trans (by omega) (ih _ (pos + 1))
    · simp

theorem digitsLoop_all (line : List Nat) :
    ∀ fuel start pos,
      (∀ j, j ≤ fuel → isdigit (byteAt line (pos + j)) = true) →
      (digitsLoop fuel start pos line).2 = pos + fuel := by
  intro fuel
  induction fuel with
  | zero => intro start pos _; simp [digitsLoop]
  | succ f ih =>
    intro start pos hall
    simp only [digitsLoop]
    cases f with
    | zero => simp
    | succ f2 =>
      have hd : isdigit (byteAt line (pos + 1)) = true := hall 1 (by omega)
      rw [if_pos ⟨by omega, hd⟩]
      rw [ih _ (pos + 1) (fun j hj => by
        rw [show pos + 1 + j = pos + (j + 1) by omega]
        exact hall (j + 1) (by omega))]
      omega

/-- Claim C7, amended: `parse_list_marker` rejects a digit run of ten or
more digits; under `interrupts_paragraph` an ordered marker must start at
1, and the blank-line rejection after the marker tests only the LF byte —
for both marker kinds an accepted marker is never followed (after spaces
and tabs) by LF, while CR after a bullet is accepted (see the
counterexample). -/
theorem c7_list_marker :
    (∀ (line : List Nat) (pos : Nat) (ip : Bool),
      (∀ j, j < 10 → isdigit (byteAt line (pos + j)) = true) →
      parseListMarker line pos ip = none) ∧
    (∀ (line : List Nat) (pos m : Nat) (nl : NodeList),
      parseListMarker line pos true = some (m, nl) →
      nl.listType = .ordered → nl.start = 1) ∧
    (∀ (line : List Nat) (pos m : Nat) (nl : NodeList),
      parseListMarker line pos true = some (m, nl) →
      byteAt line (pos + m +
        ((line.drop (pos + m)).takeWhile isSpaceOrTab).length) ≠ 10) := by
  refine ⟨?_, ?_, ?_⟩
  · intro line pos ip hall
    have h0 : isdigit (byteAt line pos) = true := by
      have := hall 0 (by omega)
      simpa using this
    have hb : 48 ≤ byteAt line pos ∧ byteAt line pos ≤ 57 := by
      simpa [isdigit] using h0
    have hc : ¬(byteAt line pos = 42 ∨ byteAt line pos = 45 ∨
        byteAt line pos = 43) := by omega
    have hpos : (digitsLoop 9 0 pos line).2 = pos + 9 :=
      digitsLoop_all line 9 0 pos (fun j hj => hall j (by omega))
    have h9 : 48 ≤ byteAt line (pos + 9) ∧ byteAt line (pos + 9) ≤ 57 := by
      simpa [isdigit] using hall 9 (by omega)
    simp only [parseListMarker]
    rw [if_neg hc, if_pos h0]
    by_cases hip : ip = true ∧ (digitsLoop 9 0 pos line).1 ≠ 1
    · rw [if_pos hip]
    · rw [if_neg hip, hpos, if_pos ⟨by omega, by omega⟩]
  · intro line pos m nl h hord
    simp only [parseListMarker] at h
    split_ifs at h with hA hB hC hD hE hF hG hH <;>
      try (exact Option.noConfusion h)
    · simp only [Option.some.injEq, Prod.mk.injEq] at h
      obtain ⟨_, hnl⟩ := h
      rw [← hnl] at hord
      simp at hord
    all_goals
      simp only [Option.some.injEq, Prod.mk.injEq] at h
    all_goals
      obtain ⟨_, hnl⟩ := h
    all_goals
      rw [← hnl]
    all_goals
      show (digitsLoop 9 0 pos line).1 = 1
    all_goals
      by_contra hne
    all_goals
      exact hE ⟨trivial, hne⟩
  · intro line pos m nl h
    have hle := digitsLoop_pos_le line 9 0 pos
    simp only [parseListMarker] at h
    split_ifs at h with hA hB hC hD hE hF hG hH <;>
      try (exact Option.noConfusion h)
    · simp only [Option.some.injEq, Prod.mk.injEq] at h
      obtain ⟨hm, _⟩ := h
      subst hm
      rw [show pos + (pos + 1 - pos) = pos + 1 by omega]
      intro hx
      exact hC ⟨trivial, hx⟩
    all_goals
      simp only [Option.some.injEq, Prod.mk.injEq] at h
    all_goals
      obtain ⟨hm, _⟩ := h
    all_goals
      subst hm
    all_goals
      rw [show pos + ((digitsLoop 9 0 pos line).2 + 1 - pos) =
          (digitsLoop 9 0 pos line).2 + 1 by omega]
    all_goals
      intro hx
    all_goals
      exact hH ⟨trivial, by simp [isLineEndChar, hx]⟩

theorem c7_list_marker_witness :
    parseListMarker [49, 50, 51, 52, 53, 54, 55, 56, 57, 48, 46, 32] 0
      false = none :=
  c7_list_marker.1 [49, 50, 51, 52, 53, 54, 55, 56, 57, 48, 46, 32] 0 false
    (by decide)

theorem updNode_nodes_length (st : PState) (j : Nat) (f : NodeRec → NodeRec) :
    (updNode st j f).nodes.length = st.nodes.length := by
  simp [updNode, setNode]

theorem getNode_append_lt (st : PState) (n : NodeRec) (i : Nat)
    (hi : i < st.nodes.length) :
    getNode { st with nodes := st.nodes ++ [n] } i = getNode st i := by
  unfold getNode
  exact List.getD_append _ _ _ _ hi

theorem getNode_append_self (st : PState) (n : NodeRec) :
    getNode { st with nodes := st.nodes ++ [n] } st.nodes.length = n := by
  unfold getNode
  simp [List.getD]

theorem getNode_updNode_self_lt (st : PState) (j : Nat) (f : NodeRec → NodeRec)
    (h : j < st.nodes.length) :
    getNode (updNode st j f) j = f (getNode st j) := by
  unfold updNode
  rw [getNode_setNode_self, if_pos h]

theorem appendChildNode_spec (st : PState) (parent : Nat) (n : NodeRec)
    (hp : parent < st.nodes.length) :
    (appendChildNode st parent n).2 = st.nodes.length ∧
    (appendChildNode st parent n).1.nodes.length = st.nodes.length + 1 ∧
    getNode (appendChildNode st parent n).1 st.nodes.length =
      { n with parent := some parent } ∧
    getNode (appendChildNode st parent n).1 parent =
      { getNode st parent with children :=
          (getNode st parent).children ++ [st.nodes.length] } := by
  unfold appendChildNode
  refine ⟨rfl, ?_, ?_, ?_⟩
  · rw [updNode_nodes_length]
    simp
  · rw [getNode_updNode_ne _ _ _ _ (by omega)]
    exact getNode_append_self _ _
  · rw [getNode_updNode_self_lt _ _ _ (by simp; omega)]
    rw [getNode_append_lt _ _ _ hp]

theorem addChild_fast (st : PState) (parent : Nat) (value : NodeValue)
    (col : Nat) (hcc : canContainType (getNode st parent).value value = true) :
    addChild st parent value col =
      appendChildNode st parent (makeBlock value st.lineNumber col) := by
  unfold addChild
  rw [addChildGo, if_pos hcc]

theorem cellsFoldSpec (newRow startCol : Nat) :
    ∀ (cells : List (List Nat)) (s : PState),
      newRow < s.nodes.length →
      (getNode s newRow).value = .tableRow false →
      newRow < (cells.foldl (fun s content =>
          let rc := addChild s newRow .tableCell startCol
          updNode rc.1 rc.2 (fun n => { n with content := content })) s).nodes.length ∧
      (getNode (cells.foldl (fun s content =>
          let rc := addChild s newRow .tableCell startCol
          updNode rc.1 rc.2 (fun n => { n with content := content })) s) newRow).value =
        .tableRow false ∧
      (getNode (cells.foldl (fun s content =>
          let rc := addChild s newRow .tableCell startCol
          updNode rc.1 rc.2 (fun n => { n with content := content })) s) newRow).children.length =
        (getNode s newRow).children.length + cells.length := by
  intro cells
  induction cells with
  | nil =>
    intro s h1 h2
    exact ⟨h1, h2, by simp⟩
  | cons c cs ih =>
    intro s h1 h2
    simp only [List.foldl_cons]
    have hcc : canContainType (getNode s newRow).value .tableCell = true := by
      rw [h2]
      rfl
    rw [addChild_fast s newRow .tableCell startCol hcc]
    obtain ⟨hid, hlen, _hfresh, hparent⟩ :=
      appendChildNode_spec s newRow (makeBlock .tableCell s.lineNumber startCol) h1
    set A := appendChildNode s newRow (makeBlock .tableCell s.lineNumber startCol)
      with hA
    have hne : newRow ≠ A.2 := by rw [hid]; omega
    have hrow1 : getNode (updNode A.1 A.2 (fun n => { n with content := c }))
        newRow = getNode A.1 newRow := getNode_updNode_ne _ _ _ _ hne
    have hlen1 : (updNode A.1 A.2 (fun n => { n with content := c })).nodes.length =
        s.nodes.length + 1 := by
      rw [updNode_nodes_length, hlen]
    have h1n : newRow <
        (updNode A.1 A.2 (fun n => { n with content := c })).nodes.length := by
      omega
    have h2n : (getNode (updNode A.1 A.2 (fun n => { n with content := c }))
        newRow).value = .tableRow false := by
      rw [hrow1, hparent]
      exact h2
    obtain ⟨g1, g2, g3⟩ := ih _ h1n h2n
    refine ⟨g1, g2, ?_⟩
    rw [g3, hrow1, hparent]
    simp only [List.length_append, List.length_cons, List.length_nil]
    omega

theorem rowCellsGo_spec :
    ∀ (fuel al : Nat) (cells : List (List Nat)) (i : Nat), al - i < fuel →
      rowCellsGo fuel al cells i =
        (cells.take (min al cells.length)).drop i ++
          List.replicate (al - max i (min al cells.length)) ([] : List Nat) := by
  intro fuel
  induction fuel with
  | zero => intro al cells i h; omega
  | succ f ih =>
    intro al cells i h
    simp only [rowCellsGo]
    by_cases h1 : i < min al cells.length
    · rw [if_pos h1, ih al cells (i + 1) (by omega)]
      have hlen : i < (cells.take (min al cells.length)).length := by
        simp only [List.length_take]
        omega
      rw [List.drop_eq_getElem_cons hlen]
      have hgd : cells.getD i [] = (cells.take (min al cells.length)).get ⟨i, hlen⟩ := by
        rw [List.get_eq_getElem, List.getElem_take]
        rw [List.getD_eq_getElem?_getD,
          List.getElem?_eq_getElem (by omega : i < cells.length)]
        rfl
      rw [hgd]
      rw [show max i (min al cells.length) = min al cells.length by omega,
          show max (i + 1) (min al cells.length) = min al cells.length by omega]
      simp
    · rw [if_neg h1]
      by_cases h2 : i < al
      · rw [if_pos h2, ih al cells (i + 1) (by omega)]
        rw [List.drop_eq_nil_of_le (by simp only [List.length_take]; omega),
            List.drop_eq_nil_of_le (by simp only [List.length_take]; omega)]
        rw [show max i (min al cells.length) = i by omega,
            show max (i + 1) (min al cells.length) = i + 1 by omega]
        simp only [List.nil_append]
        rw [show al - i = (al - (i + 1)) + 1 by omega, List.replicate_succ]
      · rw [if_neg h2]
        rw [List.drop_eq_nil_of_le (by simp only [List.length_take]; omega)]
        rw [show al - max i (min al cells.length) = 0 by omega]
        simp

/-- Claim C8: `try_opening_row`'s cell loops truncate the parsed row to
the alignment count and pad with empty cells (so the result always has
exactly `k` cells); a `Table`'s continuation check fails exactly when the
line does not match the row shape; on any non-blank line fed to an open
`Table`, `try_opening_row` creates a `TableRow(false)` node with exactly
the alignment count of `TableCell` children; and the concrete parse of a
table with a long row, a short row and a blank line shows those rows in
the final tree and the table closed by the non-matching line. -/
theorem c8_table_rows :
    (∀ (k : Nat) (cells : List (List Nat)),
      rowCells k cells =
        cells.take (min k cells.length) ++
          List.replicate (k - min k cells.length) ([] : List Nat) ∧
      (rowCells k cells).length = k) ∧
    (∀ (st : PState) (line : List Nat) (fuel container child : Nat)
        (aligns : List TableAlignment),
      (getNode st container).children.getLast? = some child →
      (getNode st child).openFlag = true →
      (getNode st child).value = .table aligns →
      tableMatches (line.drop (findFirstNonspace st line).firstNonspace) =
        false →
      checkOpenBlocksInner st line (fuel + 1) container =
        (findFirstNonspace st line, false, child, true)) ∧
    (∀ (st : PState) (container : Nat) (aligns : List TableAlignment)
        (line : List Nat),
      st.blank = false →
      container < st.nodes.length →
      (getNode st container).value = .table aligns →
      ∃ st2, tryOpeningRow st container aligns line =
          some (st2, st.nodes.length, false) ∧
        (getNode st2 st.nodes.length).value = .tableRow false ∧
        (getNode st2 st.nodes.length).children.length = aligns.length) ∧
    ((parseDoc true [124, 97, 124, 98, 124, 99, 124, 10, 124, 45, 124, 45,
        124, 45, 124, 10, 124, 49, 124, 50, 124, 51, 124, 52, 124, 10, 124,
        112, 124, 10, 10, 120, 10]).map
      (fun st =>
        ((getNode st 2).value, (getNode st 2).openFlag,
         (getNode st 2).children,
         (getNode st 7).value, (getNode st 7).children,
         (getNode st 8).content, (getNode st 9).content,
         (getNode st 10).content,
         (getNode st 11).value, (getNode st 11).children,
         (getNode st 12).content, (getNode st 13).content,
         (getNode st 14).content,
         (getNode st 15).value, (getNode st 15).content)) =
      some (.table [.noAlign, .noAlign, .noAlign], false, [3, 7, 11],
        .tableRow false, [8, 9, 10], [49], [50], [51],
        .tableRow false, [12, 13, 14], [112], [], [],
        .paragraph, [120, 10])) := by
  refine ⟨?_, ?_, ?_, by rfl⟩
  · intro k cells
    have hs := rowCellsGo_spec (k + 1) k cells 0 (by omega)
    constructor
    · unfold rowCells
      rw [hs]
      simp [Nat.zero_max]
    · unfold rowCells
      rw [hs]
      simp [List.length_take, Nat.zero_max]
  · intro st line fuel container child aligns hlast hopen hval hmat
    have hlco : lastChildIsOpen st container = true := by
      unfold lastChildIsOpen
      simp only [hlast]
      exact hopen
    have hnodes : ∀ i, getNode (findFirstNonspace st line) i = getNode st i :=
      fun i => rfl
    simp [checkOpenBlocksInner, hlco, hlast, hnodes, hval, hmat]
  · intro st container aligns line hb hc hval
    have hcc : canContainType (getNode st container).value (.tableRow false) =
        true := by
      rw [hval]
      rfl
    simp only [tryOpeningRow, hb, Bool.false_eq_true, if_false]
    rw [addChild_fast st container (.tableRow false)
      (getNode st container).startColumn hcc]
    obtain ⟨hid, hlen, hfresh, _⟩ := appendChildNode_spec st container
      (makeBlock (.tableRow false) st.lineNumber
        (getNode st container).startColumn) hc
    set A := appendChildNode st container
      (makeBlock (.tableRow false) st.lineNumber
        (getNode st container).startColumn) with hA
    have h1 : A.2 < A.1.nodes.length := by
      rw [hid, hlen]
      omega
    have h2 : (getNode A.1 A.2).value = .tableRow false := by
      rw [hid, hfresh]
      rfl
    obtain ⟨g1, g2, g3⟩ := cellsFoldSpec A.2 (getNode st container).startColumn
      (rowCells aligns.length ((row line).getD [])) A.1 h1 h2
    have hadv : ∀ (s : PState) (l : List Nat) (c : Nat) (b : Bool) (i : Nat),
        getNode (advanceOffset s l c b) i = getNode s i :=
      fun _ _ _ _ _ => rfl
    have hcl : (rowCells aligns.length ((row line).getD [])).length =
        aligns.length := by
      unfold rowCells
      rw [rowCellsGo_spec _ _ _ 0 (by omega)]
      simp [List.length_take, Nat.zero_max]
    have hzero : (getNode A.1 A.2).children.length = 0 := by
      rw [hid, hfresh]
      rfl
    rw [hid]
    refine ⟨_, rfl, ?_, ?_⟩
    · rw [hadv, ← hid]
      exact g2
    · rw [hadv, ← hid, g3, hzero, hcl]
      omega

theorem c8_table_rows_witness :
    checkOpenBlocksInner
        ⟨[⟨.document, [], 0, 0, 0, 0, true, false, none, [1]⟩,
          ⟨.table [.noAlign], [], 1, 1, 1, 0, true, false, some 0, []⟩],
         [], 0, 1, 0, 0, 0, 0, 0, false, false, 0, true⟩
        [10] 1 0 =
      (findFirstNonspace
        ⟨[⟨.document, [], 0, 0, 0, 0, true, false, none, [1]⟩,
          ⟨.table [.noAlign], [], 1, 1, 1, 0, true, false, some 0, []⟩],
         [], 0, 1, 0, 0, 0, 0, 0, false, false, 0, true⟩ [10],
       false, 1, true) :=
  c8_table_rows.2.1 _ [10] 0 0 1 [.noAlign] rfl rfl rfl (by rfl)

/-- Claim C9: in the tasklist position (a `Text` first child of a
`Paragraph` that is itself the first child of an `Item`), a text
beginning with `[x]`, `[X]` or `[ ]` followed by whitespace or the end of
the text is rewritten: the marker is stripped from the text and the
inserted `HtmlInline` literal is the checked checkbox exactly for
`x`/`X`, the unchecked one for a space. -/
theorem c9_tasklist (rest : List Nat) (c : Nat)
    (hr : rest.head? = none ∨ ∃ d, rest.head? = some d ∧ isspace d = true) :
    ((c = 120 ∨ c = 88) →
      processTasklist ⟨false, true, false, true⟩ ([91, c, 93] ++ rest) =
        some (rest, checkedBox)) ∧
    processTasklist ⟨false, true, false, true⟩ ([91, 32, 93] ++ rest) =
      some (rest, uncheckedBox) := by
  have main : ∀ c2, (c2 = 120 ∨ c2 = 88 ∨ c2 = 32) →
      processTasklist ⟨false, true, false, true⟩ ([91, c2, 93] ++ rest) =
        some (rest, if c2 ≠ 32 then checkedBox else uncheckedBox) := by
    intro c2 hc2
    rcases hr with hr | ⟨d, hd, hds⟩
    · have hre : rest = [] := by cases rest <;> simp_all
      subst hre
      rcases hc2 with rfl | rfl | rfl <;> rfl
    · cases rest with
      | nil => simp at hd
      | cons d0 r0 =>
        have hd0 : d0 = d := by simpa using hd
        subst hd0
        have hds2 : ((((d0 = 9 ∨ d0 = 10) ∨ d0 = 11) ∨ d0 = 12) ∨ d0 = 13) ∨
            d0 = 32 := by
          simpa [isspace] using hds
        rcases hc2 with rfl | rfl | rfl <;>
          simp [processTasklist, tasklistScan, isspace, hds2]
  refine ⟨?_, ?_⟩
  · rintro (rfl | rfl)
    · simpa using main 120 (by omega)
    · simpa using main 88 (by omega)
  · simpa using main 32 (by omega)

theorem c9_tasklist_witness :
    (processTasklist ⟨false, true, false, true⟩ [91, 120, 93, 32, 104, 105] =
        some ([32, 104, 105], checkedBox)) ∧
      processTasklist ⟨false, true, false, true⟩ [91, 32, 93, 32, 104, 105] =
        some ([32, 104, 105], uncheckedBox) :=
  ⟨(c9_tasklist [32, 104, 105] 120 (Or.inr ⟨32, rfl, rfl⟩)).1 (Or.inl rfl),
   (c9_tasklist [32, 104, 105] 120 (Or.inr ⟨32, rfl, rfl⟩)).2⟩

/-- Claim C7, counterexample: under `interrupts_paragraph` the bullet
blank-line rejection tests only the LF byte — `- \r\n` (CR after the
space) is accepted although CR is a line end, while the LF analogue is
rejected, and the ordered form `1. \r\n` is rejected through
`is_line_end_char`. -/
theorem c7_list_marker_cex :
    (parseListMarker [45, 32, 13, 10] 0 true).isSome = true ∧
      parseListMarker [45, 32, 10] 0 true = none ∧
      parseListMarker [49, 46, 32, 13, 10] 0 true = none :=
  ⟨rfl, rfl, rfl⟩

end Comrak
